import Mathlib

/-!
Verification of the documentation build-pipeline scripts
`scripts/generate-docusaurus-md.py` and `scripts/prune-toc.py`.

Strings are modelled as `List Char`; each Python helper is translated to an
executable Lean function.  Regex-based helpers are translated to explicit
character scanners implementing the (deterministic) backtracking behaviour of
the concrete patterns used by the scripts.
-/

set_option maxHeartbeats 1600000
set_option maxRecDepth 8000

namespace DocsGen

/-! ### Basic character/string helpers (Python semantics) -/

/-- Python `\s` for the ASCII range: the whitespace class used by `re` and
by `str.strip`. -/
def wsChar (c : Char) : Bool :=
  c = ' ' || c = '\t' || c = '\n' || c = '\r' || c = '\x0b' || c = '\x0c'

/-- Python `\w` for the ASCII range. -/
def wordChar (c : Char) : Bool :=
  c.isAlphanum || c = '_'

/-- Python `str.strip()`: drop whitespace from both ends. -/
def pyStrip (l : List Char) : List Char :=
  ((l.dropWhile wsChar).reverse.dropWhile wsChar).reverse

/-- Match a literal prefix; on success return the remainder. -/
def dropLit : List Char → List Char → Option (List Char)
  | [], s => some s
  | _ :: _, [] => none
  | c :: p, d :: s => if c = d then dropLit p s else none

/-- Python `pat in s` (substring containment). -/
def isSubstr (pat : List Char) : List Char → Bool
  | [] => pat.isPrefixOf []
  | c :: rest => pat.isPrefixOf (c :: rest) || isSubstr pat rest

/-- Python `s.endswith(suf)`. -/
def endsWithL (suf s : List Char) : Bool :=
  suf.reverse.isPrefixOf s.reverse

/-- `full.rsplit(".", 1)[-1]` as used by `_short_type`: the final
dot-delimited segment (the whole string when it has no dot). -/
def lastSegment (l : List Char) : List Char :=
  if '.' ∈ l then (l.reverse.takeWhile (fun c => !(c = '.'))).reverse
  else l

/-! ### Generic list lemmas used throughout -/

theorem takeWhile_of_all {p : Char → Bool} :
    ∀ (l : List Char), (∀ c ∈ l, p c = true) → l.takeWhile p = l := by
  intro l h
  induction l with
  | nil => rfl
  | cons c rest ih =>
    have hc : p c = true := h c (List.mem_cons_self _ _)
    simp [List.takeWhile_cons, hc, ih (fun x hx => h x (List.mem_cons_of_mem _ hx))]

theorem takeWhile_append_of_all {p : Char → Bool} :
    ∀ (a b : List Char), (∀ c ∈ a, p c = true) →
      (a ++ b).takeWhile p = a ++ b.takeWhile p := by
  intro a b h
  induction a with
  | nil => rfl
  | cons c rest ih =>
    have hc : p c = true := h c (List.mem_cons_self _ _)
    simp [List.takeWhile_cons, hc]
    exact ih (fun x hx => h x (List.mem_cons_of_mem _ hx))

theorem dropWhile_append_of_all {p : Char → Bool} :
    ∀ (a b : List Char), (∀ c ∈ a, p c = true) →
      (a ++ b).dropWhile p = b.dropWhile p := by
  intro a b h
  induction a with
  | nil => rfl
  | cons c rest ih =>
    have hc : p c = true := h c (List.mem_cons_self _ _)
    simp [List.dropWhile_cons, hc]
    exact ih (fun x hx => h x (List.mem_cons_of_mem _ hx))

theorem mem_takeWhile_sat {p : Char → Bool} :
    ∀ (l : List Char), ∀ c ∈ l.takeWhile p, p c = true := by
  intro l
  induction l with
  | nil => intro c hc; simp at hc
  | cons d rest ih =>
    intro c hc
    rw [List.takeWhile_cons] at hc
    split at hc
    · next hd =>
      rcases List.mem_cons.mp hc with h | h
      · rw [h]; exact hd
      · exact ih c h
    · simp at hc

theorem dropLit_self : ∀ (p s : List Char), dropLit p (p ++ s) = some s := by
  intro p
  induction p with
  | nil => intro s; rfl
  | cons c rest ih => intro s; simp [dropLit, ih]

theorem dropLit_length : ∀ (p l r : List Char), dropLit p l = some r → r.length ≤ l.length := by
  intro p
  induction p with
  | nil => intro l r h; cases h; simp [dropLit]
  | cons c rest ih =>
    intro l r h
    cases l with
    | nil => simp [dropLit] at h
    | cons d s =>
      simp only [dropLit] at h
      split at h
      · have := ih s r h
        simp only [List.length_cons]
        omega
      · cases h

theorem lastSegment_eq (l : List Char) :
    lastSegment l = (l.reverse.takeWhile (fun c => !(c = '.'))).reverse := by
  unfold lastSegment
  split
  · rfl
  · next h =>
    rw [takeWhile_of_all l.reverse ?_, List.reverse_reverse]
    intro c hc
    simp only [List.mem_reverse] at hc
    simp only [Bool.not_eq_true', decide_eq_false_iff_not]
    intro heq
    exact h (heq ▸ hc)

theorem lastSegment_no_dot (l : List Char) : '.' ∉ lastSegment l := by
  rw [lastSegment_eq]
  intro hmem
  rw [List.mem_reverse] at hmem
  have := mem_takeWhile_sat (p := fun c => !(c = '.')) l.reverse _ hmem
  simp at this

theorem lastSegment_append_no_dot (a x : List Char) (h : ∀ c ∈ x, ¬(c = '.')) :
    lastSegment (a ++ x) = lastSegment a ++ x := by
  rw [lastSegment_eq, lastSegment_eq]
  rw [List.reverse_append]
  rw [takeWhile_append_of_all x.reverse a.reverse ?hall]
  · rw [List.reverse_append, List.reverse_reverse]
  · intro c hc
    rw [List.mem_reverse] at hc
    simp only [Bool.not_eq_true', decide_eq_false_iff_not]
    exact h c hc

/-! ### Data model (`TypeItem` / `MemberItem` dataclasses)

`example` and `namespace` are Lean keywords, so those two dataclass fields are
renamed `exampleText` and `namespace_`; parameter descriptors are triples
(name, type, description). -/

structure MemberItem where
  uid : String := ""
  name : String := ""
  type_kind : String := ""
  summary : String := ""
  syntax_content : String := ""
  parameters : List (String × String × String) := []
  return_type : String := ""
  return_description : String := ""
  exampleText : String := ""

structure TypeItem where
  uid : String := ""
  name : String := ""
  full_name : String := ""
  type_kind : String := ""
  summary : String := ""
  remarks : String := ""
  syntax_content : String := ""
  namespace_ : String := ""
  parent : String := ""
  inheritance : List String := []
  implements : List String := []
  children_uids : List String := []
  members : List MemberItem := []
  exampleText : String := ""

/-! ### `classify_types`: bucket types into the six pages -/

inductive Bucket where
  | camundaClient
  | configuration
  | runtime
  | models
  | enums
  | keys
deriving DecidableEq, Repr

def CONFIGURATION_TYPES : List String :=
  [ "CamundaOptions", "CamundaConfig", "ConfigurationHydrator", "AuthConfig",
    "BasicAuthConfig", "OAuthConfig", "OAuthRetryConfig", "HttpRetryConfig",
    "BackpressureConfig", "EventualConfig", "ValidationConfig", "ValidationMode",
    "AuthStrategy", "JobWorkerConfig", "ConfigErrorCode", "ConfigErrorDetail" ]

/-- `ns = t.namespace or t.parent or ""` (Python truthiness on strings). -/
def nsOrParent (t : TypeItem) : String :=
  if t.namespace_ ≠ "" then t.namespace_
  else if t.parent ≠ "" then t.parent
  else ""

/-- The branch taken by the loop body of `classify_types` for one item. -/
def classify (t : TypeItem) : Bucket :=
  if t.name = "CamundaClient" ∨ t.name = "Camunda" ∨
      t.name = "CamundaServiceCollectionExtensions" then .camundaClient
  else if t.name ∈ CONFIGURATION_TYPES then .configuration
  else if t.type_kind = "Enum" ∧ t.name ∉ CONFIGURATION_TYPES then .enums
  else if t.type_kind = "Struct" ∧ endsWithL ("Key".data) t.name.data = true then .keys
  else if isSubstr ("Runtime".data) (nsOrParent t).data = true then .runtime
  else .models

structure Pages where
  camunda_client : List TypeItem
  configuration : List TypeItem
  runtime : List TypeItem
  models : List TypeItem
  enums : List TypeItem
  keys : List TypeItem

def Pages.empty : Pages := ⟨[], [], [], [], [], []⟩

def addToBucket (b : Bucket) (t : TypeItem) (p : Pages) : Pages :=
  match b with
  | .camundaClient => { p with camunda_client := t :: p.camunda_client }
  | .configuration => { p with configuration := t :: p.configuration }
  | .runtime => { p with runtime := t :: p.runtime }
  | .models => { p with models := t :: p.models }
  | .enums => { p with enums := t :: p.enums }
  | .keys => { p with keys := t :: p.keys }

/-- `classify_types`: the Python loop appends each item to the bucket chosen
by the if/elif chain, preserving input order within each bucket. -/
def classify_types : List TypeItem → Pages
  | [] => Pages.empty
  | t :: rest => addToBucket (classify t) t (classify_types rest)

/-- Claim C1: the classifier partitions its input into the six fixed buckets;
every input item lands in exactly one bucket (each bucket is precisely the
order-preserving filter of the input by the classification function), counts
add up so nothing is dropped or duplicated, and classification is
deterministic. -/
theorem classify_types_partition (ts : List TypeItem) :
    (classify_types ts).camunda_client
        = ts.filter (fun t => classify t = Bucket.camundaClient) ∧
    (classify_types ts).configuration
        = ts.filter (fun t => classify t = Bucket.configuration) ∧
    (classify_types ts).runtime
        = ts.filter (fun t => classify t = Bucket.runtime) ∧
    (classify_types ts).models
        = ts.filter (fun t => classify t = Bucket.models) ∧
    (classify_types ts).enums
        = ts.filter (fun t => classify t = Bucket.enums) ∧
    (classify_types ts).keys
        = ts.filter (fun t => classify t = Bucket.keys) ∧
    (classify_types ts).camunda_client.length
      + (classify_types ts).configuration.length
      + (classify_types ts).runtime.length
      + (classify_types ts).models.length
      + (classify_types ts).enums.length
      + (classify_types ts).keys.length = ts.length ∧
    classify_types ts = classify_types ts := by
  induction ts with
  | nil =>
    refine ⟨rfl, rfl, rfl, rfl, rfl, rfl, rfl, rfl⟩
  | cons t rest ih =>
    obtain ⟨h1, h2, h3, h4, h5, h6, hlen, -⟩ := ih
    rw [h1, h2, h3, h4, h5, h6] at hlen
    refine ⟨?_, ?_, ?_, ?_, ?_, ?_, ?_, rfl⟩ <;>
      cases hc : classify t <;>
      simp [classify_types, addToBucket, List.filter_cons, hc, h1, h2, h3, h4, h5, h6] <;>
      omega

/-! Spec-side classification rules, written from the specification's own
decision-order description (refinement targets for claim C2). -/

def RuleClient (t : TypeItem) : Prop :=
  t.name = "CamundaClient" ∨ t.name = "Camunda" ∨
    t.name = "CamundaServiceCollectionExtensions"

def RuleConfig (t : TypeItem) : Prop := t.name ∈ CONFIGURATION_TYPES

def RuleEnum (t : TypeItem) : Prop :=
  t.type_kind = "Enum" ∧ t.name ∉ CONFIGURATION_TYPES

def RuleKeys (t : TypeItem) : Prop :=
  t.type_kind = "Struct" ∧ endsWithL ("Key".data) t.name.data = true

def RuleRuntime (t : TypeItem) : Prop :=
  isSubstr ("Runtime".data) (nsOrParent t).data = true

/-- Claim C2: the six classification rules are applied first-match-wins in the
fixed order client set, configuration set, enum kind, `Key`-suffixed struct,
`Runtime` namespace marker, default models; a type matching an earlier rule is
never placed by a later one.  The final conjunct is the claim's example: a
`Struct` named with the `Key` suffix whose namespace contains `Runtime` lands
in `keys`, not `runtime`. -/
theorem classify_first_match_order :
    (∀ t : TypeItem,
      (classify t = Bucket.camundaClient ↔ RuleClient t) ∧
      (classify t = Bucket.configuration ↔ ¬RuleClient t ∧ RuleConfig t) ∧
      (classify t = Bucket.enums ↔ ¬RuleClient t ∧ ¬RuleConfig t ∧ RuleEnum t) ∧
      (classify t = Bucket.keys ↔
        ¬RuleClient t ∧ ¬RuleConfig t ∧ ¬RuleEnum t ∧ RuleKeys t) ∧
      (classify t = Bucket.runtime ↔
        ¬RuleClient t ∧ ¬RuleConfig t ∧ ¬RuleEnum t ∧ ¬RuleKeys t ∧ RuleRuntime t) ∧
      (classify t = Bucket.models ↔
        ¬RuleClient t ∧ ¬RuleConfig t ∧ ¬RuleEnum t ∧ ¬RuleKeys t ∧ ¬RuleRuntime t)) ∧
    classify { name := "ElementInstanceKey", type_kind := "Struct",
               namespace_ := "Camunda.Client.Runtime" } = Bucket.keys := by
  constructor
  · intro t
    unfold classify RuleClient RuleConfig RuleEnum RuleKeys RuleRuntime
    split
    · next hA => simp_all
    · next hA =>
      split
      · next hB => simp_all
      · next hB =>
        split
        · next hC => simp_all
        · next hC =>
          split
          · next hD => simp_all
          · next hD =>
            split
            · next hE => simp_all
            · next hE => simp_all
  · decide

/-! ### Line splitting and `textwrap.dedent` -/

/-- Python `text.split("\n")` (keeps empty fields, including a trailing one). -/
def splitNl : List Char → List (List Char)
  | [] => [[]]
  | c :: rest =>
    if c = '\n' then [] :: splitNl rest
    else
      match splitNl rest with
      | [] => [[c]]
      | l :: ls => (c :: l) :: ls

/-- Python `text.splitlines()`: split at `\n`, `\r\n` or `\r`; no trailing
empty line after a final terminator. -/
def pySplitlines : List Char → List (List Char)
  | [] => []
  | '\n' :: rest => [] :: pySplitlines rest
  | '\r' :: '\n' :: rest => [] :: pySplitlines rest
  | '\r' :: rest => [] :: pySplitlines rest
  | c :: rest =>
    match pySplitlines rest with
    | [] => [[c]]
    | l :: ls => (c :: l) :: ls

/-- Python `"\n".join(lines)`. -/
def joinNl (ls : List (List Char)) : List Char := List.intercalate ['\n'] ls

/-- `[ \t]`, the indentation class of `textwrap.dedent`. -/
def spaceTab (c : Char) : Bool := c = ' ' || c = '\t'

/-- Longest common prefix of two indent strings (the net effect of the
margin-folding loop in `textwrap.dedent`). -/
def commonPrefix2 : List Char → List Char → List Char
  | c :: a, d :: b => if c = d then c :: commonPrefix2 a b else []
  | _, _ => []

/-- `textwrap.dedent` (CPython): blank whitespace-only lines, compute the
common `[ \t]` margin over lines that have content, then remove that margin
from the start of every line that carries it. -/
def dedent (text : List Char) : List Char :=
  let lines := splitNl text
  let blanked := lines.map (fun l => if l ≠ [] ∧ l.all spaceTab = true then [] else l)
  let indents := blanked.filterMap (fun l =>
    if l.dropWhile spaceTab ≠ [] then some (l.takeWhile spaceTab) else none)
  let margin := match indents with
    | [] => []
    | i :: rest => rest.foldl commonPrefix2 i
  if margin = [] then joinNl blanked
  else joinNl (blanked.map (fun l =>
    if margin.isPrefixOf l then l.drop margin.length else l))

/-! ### `parse_region_tags` -/

/-- Parse `Name>` followed by optional trailing whitespace (the tail of both
marker regexes, after the opening `<` and optional `/`). -/
def tagEnd? (r2 : List Char) : Option (List Char) :=
  let nm := r2.takeWhile wordChar
  if nm = [] then none
  else
    match r2.dropWhile wordChar with
    | '>' :: r4 => if r4.dropWhile wsChar = [] then some nm else none
    | _ => none

/-- Consume the leading `//` of a marker line. -/
def stripSlashes? (s : List Char) : Option (List Char) :=
  match s with
  | c1 :: c2 :: r => if c1 = '/' ∧ c2 = '/' then some r else none
  | _ => none

/-- Consume a leading `<`. -/
def dropLt? (r : List Char) : Option (List Char) :=
  match r with
  | c :: r2 => if c = '<' then some r2 else none
  | [] => none

/-- Consume a leading `/`. -/
def dropSlash? (r : List Char) : Option (List Char) :=
  match r with
  | c :: r2 => if c = '/' then some r2 else none
  | [] => none

/-- `re.match(r"^//\s*<(\w+)>\s*$", stripped)`. -/
def openMarkerS? (s : List Char) : Option (List Char) :=
  (stripSlashes? s).bind fun r =>
    (dropLt? (r.dropWhile wsChar)).bind fun r2 => tagEnd? r2

/-- `re.match(r"^//\s*</(\w+)>\s*$", stripped)`. -/
def closeMarkerS? (s : List Char) : Option (List Char) :=
  (stripSlashes? s).bind fun r =>
    (dropLt? (r.dropWhile wsChar)).bind fun r2 =>
      (dropSlash? r2).bind fun r3 => tagEnd? r3

def openMarker? (line : List Char) : Option (List Char) := openMarkerS? (pyStrip line)

def closeMarker? (line : List Char) : Option (List Char) := closeMarkerS? (pyStrip line)

theorem dropSlash?_some {r x : List Char} (h : dropSlash? r = some x) : r = '/' :: x := by
  cases r with
  | nil => simp [dropSlash?] at h
  | cons c r2 =>
    simp only [dropSlash?] at h
    split at h
    · next hcc => rw [hcc, Option.some_inj.mp h]
    · cases h

theorem openMarker_none_of_close (l t : List Char) (h : closeMarker? l = some t) :
    openMarker? l = none := by
  unfold closeMarker? closeMarkerS? at h
  unfold openMarker? openMarkerS?
  cases hss : stripSlashes? (pyStrip l) with
  | none => rw [hss] at h; simp at h
  | some r =>
    rw [hss] at h
    simp only [Option.some_bind] at h ⊢
    cases hlt : dropLt? (r.dropWhile wsChar) with
    | none => rw [hlt] at h; simp at h
    | some r2 =>
      rw [hlt] at h
      simp only [Option.some_bind] at h ⊢
      cases hsl : dropSlash? r2 with
      | none => rw [hsl] at h; simp at h
      | some r3 =>
        obtain rfl : r2 = '/' :: r3 := dropSlash?_some hsl
        unfold tagEnd?
        have hw : wordChar '/' = false := by decide
        simp [List.takeWhile_cons, hw]

/-- Parser state for `parse_region_tags`: the currently open tag, the
accumulated lines, and the regions dictionary (most recent write first). -/
structure RState where
  current : Option (List Char)
  lines : List (List Char)
  regions : List (List Char × List Char)

/-- Dictionary lookup (`regions[name]`), honouring last-write-wins. -/
def lookupAssoc (k : List Char) : List (List Char × List Char) → Option (List Char)
  | [] => none
  | (k2, v) :: rest => if k2 = k then some v else lookupAssoc k rest

/-- One iteration of the `for line in text.splitlines()` loop of
`parse_region_tags`. -/
def regStep (st : RState) (line : List Char) : RState :=
  match openMarker? line with
  | some tag => ⟨some tag, [], st.regions⟩
  | none =>
    match closeMarker? line with
    | some tag =>
      if st.current = some tag then
        ⟨none, [], (tag, dedent (joinNl st.lines)) :: st.regions⟩
      else
        match st.current with
        | some _ => ⟨st.current, st.lines ++ [line], st.regions⟩
        | none => st
    | none =>
      match st.current with
      | some _ => ⟨st.current, st.lines ++ [line], st.regions⟩
      | none => st

def initState : RState := ⟨none, [], []⟩

def parse_region_tags (text : List Char) : List (List Char × List Char) :=
  (List.foldl regStep initState (pySplitlines text)).regions

theorem regStep_open (st : RState) (l tag : List Char) (h : openMarker? l = some tag) :
    regStep st l = ⟨some tag, [], st.regions⟩ := by
  unfold regStep; rw [h]

theorem regStep_close_hit (st : RState) (l tag : List Char)
    (ho : openMarker? l = none) (hc : closeMarker? l = some tag)
    (hcur : st.current = some tag) :
    regStep st l = ⟨none, [], (tag, dedent (joinNl st.lines)) :: st.regions⟩ := by
  unfold regStep
  rw [ho, hc, hcur]
  simp

theorem regStep_pass_some (st : RState) (l cur : List Char)
    (ho : openMarker? l = none) (hcur : st.current = some cur)
    (hc : ∀ tag, closeMarker? l = some tag → tag ≠ cur) :
    regStep st l = ⟨some cur, st.lines ++ [l], st.regions⟩ := by
  unfold regStep
  rw [ho]
  cases hcl : closeMarker? l with
  | none => rw [hcur]
  | some tag =>
    have hne : cur ≠ tag := fun hh => hc tag hcl hh.symm
    rw [hcur]
    simp [hne]

theorem regStep_idle (st : RState) (l : List Char)
    (ho : openMarker? l = none) (hcur : st.current = none) :
    regStep st l = st := by
  unfold regStep
  rw [ho]
  cases hcl : closeMarker? l with
  | none => rw [hcur]
  | some tag => rw [hcur]; simp

/-- While a region is open, non-marker lines (including close markers of a
different name) are accumulated verbatim. -/
theorem foldl_regStep_body (nm : List Char) (body : List (List Char))
    (hbody : ∀ l ∈ body, openMarker? l = none ∧ closeMarker? l ≠ some nm) :
    ∀ (acc : List (List Char)) (R : List (List Char × List Char)),
      List.foldl regStep ⟨some nm, acc, R⟩ body = ⟨some nm, acc ++ body, R⟩ := by
  induction body with
  | nil => intro acc R; simp
  | cons l rest ih =>
    intro acc R
    obtain ⟨hopen, hclose⟩ := hbody l (List.mem_cons_self _ _)
    have hstep : regStep ⟨some nm, acc, R⟩ l = ⟨some nm, acc ++ [l], R⟩ :=
      regStep_pass_some _ _ nm hopen rfl
        (fun tag htag hh => hclose (hh ▸ htag))
    rw [List.foldl_cons, hstep,
      ih (fun x hx => hbody x (List.mem_cons_of_mem _ hx)) (acc ++ [l]) R]
    simp

/-- After a region closed, later lines that never re-open the same name leave
its dictionary entry untouched. -/
theorem foldl_regStep_post (nm : List Char) (post : List (List Char))
    (hpost : ∀ l ∈ post, openMarker? l ≠ some nm) :
    ∀ (st : RState), st.current ≠ some nm →
      lookupAssoc nm (List.foldl regStep st post).regions = lookupAssoc nm st.regions := by
  induction post with
  | nil => intro st _; rfl
  | cons l rest ih =>
    intro st hcur
    rw [List.foldl_cons]
    have hl := hpost l (List.mem_cons_self _ _)
    have hrest := fun x hx => hpost x (List.mem_cons_of_mem _ hx)
    have hkey : (regStep st l).current ≠ some nm ∧
        lookupAssoc nm (regStep st l).regions = lookupAssoc nm st.regions := by
      cases ho : openMarker? l with
      | some tag =>
        rw [regStep_open st l tag ho]
        exact ⟨fun he => hl (ho.trans he), rfl⟩
      | none =>
        cases hcu : st.current with
        | none =>
          rw [regStep_idle st l ho hcu]
          exact ⟨hcur, rfl⟩
        | some cur =>
          have hcurne : cur ≠ nm := fun hh => hcur (by rw [hcu, hh])
          cases hcl : closeMarker? l with
          | none =>
            rw [regStep_pass_some st l cur ho hcu
              (fun tag htag => absurd htag (by rw [hcl]; simp))]
            exact ⟨by simpa [hcu] using hcur, rfl⟩
          | some tag =>
            by_cases he : tag = cur
            · subst he
              rw [regStep_close_hit st l tag ho hcl hcu]
              refine ⟨by simp, ?_⟩
              show lookupAssoc nm ((tag, dedent (joinNl st.lines)) :: st.regions)
                  = lookupAssoc nm st.regions
              simp [lookupAssoc, hcurne]
            · rw [regStep_pass_some st l cur ho hcu
                (fun tag2 htag2 hh =>
                  he (Option.some_inj.mp (hcl ▸ htag2) ▸ hh))]
              exact ⟨by simpa [hcu] using hcur, rfl⟩
    rw [ih hrest _ hkey.1, hkey.2]

/-- Amended claim C4: if the split lines of a file contain a start marker for
`nm`, followed (with no intervening start marker and no earlier close marker
for `nm`) by a matching close marker, and `nm` is never re-opened afterwards,
then `parse_region_tags` maps `nm` to exactly the lines strictly between the
two markers, joined with newlines and dedented. -/
theorem parse_region_tags_region (text : List Char) (pre body post : List (List Char))
    (o c nm : List Char)
    (hsplit : pySplitlines text = pre ++ o :: (body ++ c :: post))
    (ho : openMarker? o = some nm)
    (hc : closeMarker? c = some nm)
    (hbody : ∀ l ∈ body, openMarker? l = none ∧ closeMarker? l ≠ some nm)
    (hpost : ∀ l ∈ post, openMarker? l ≠ some nm) :
    lookupAssoc nm (parse_region_tags text) = some (dedent (joinNl body)) := by
  unfold parse_region_tags
  rw [hsplit, List.foldl_append, List.foldl_cons,
    regStep_open (List.foldl regStep initState pre) o nm ho,
    List.foldl_append, foldl_regStep_body nm body hbody [], List.nil_append,
    List.foldl_cons,
    regStep_close_hit _ c nm (openMarker_none_of_close c nm hc) hc rfl,
    foldl_regStep_post nm post hpost _ (by simp)]
  simp [lookupAssoc]

/-- Claim C5: when a start marker appears while a previous region is still
open, the accumulated lines are discarded, no entry is recorded for the
interrupted region, and accumulation restarts fresh for the new region;
parsing simply continues with the remaining lines. -/
theorem parse_region_tags_nesting (st : RState) (o o2 : List Char)
    (body t : List (List Char)) (A B : List Char)
    (ho : openMarker? o = some A)
    (ho2 : openMarker? o2 = some B)
    (hbody : ∀ l ∈ body, openMarker? l = none ∧ closeMarker? l ≠ some A) :
    List.foldl regStep st (o :: (body ++ o2 :: t))
      = List.foldl regStep ⟨some B, [], st.regions⟩ t := by
  rw [List.foldl_cons, regStep_open st o A ho, List.foldl_append,
    foldl_regStep_body A body hbody [], List.nil_append, List.foldl_cons,
    regStep_open _ o2 B ho2]

theorem parse_region_tags_region_witness :
    pySplitlines (("// <S>\n  int a = 1;\n// </S>").data)
        = [] ++ ("// <S>").data :: ([("  int a = 1;").data] ++ ("// </S>").data :: []) ∧
    openMarker? (("// <S>").data) = some (("S").data) ∧
    closeMarker? (("// </S>").data) = some (("S").data) ∧
    lookupAssoc (("S").data)
        (parse_region_tags (("// <S>\n  int a = 1;\n// </S>").data))
      = some (dedent (joinNl [("  int a = 1;").data])) :=
  ⟨by decide, by decide, by decide,
    parse_region_tags_region (("// <S>\n  int a = 1;\n// </S>").data)
      [] [("  int a = 1;").data] []
      (("// <S>").data) (("// </S>").data) (("S").data)
      (by decide) (by decide) (by decide) (by decide) (by simp)⟩

/-- Counterexample to claim C4 as stated: the first `<A>` region satisfies all
of the claim's hypotheses (its start marker is followed by a matching close
marker with no intervening start marker), yet a later region with the same
name overwrites the dictionary entry, so the map does not carry the first
region's dedented body. -/
theorem parse_region_tags_overwrite_cex :
    pySplitlines (("// <A>\n  x\n// </A>\n// <A>\n  y\n// </A>").data)
        = [("// <A>").data, ("  x").data, ("// </A>").data,
           ("// <A>").data, ("  y").data, ("// </A>").data] ∧
    openMarker? (("// <A>").data) = some (("A").data) ∧
    closeMarker? (("// </A>").data) = some (("A").data) ∧
    (∀ l ∈ [("  x").data], openMarker? l = none ∧ closeMarker? l ≠ some (("A").data)) ∧
    lookupAssoc (("A").data)
        (parse_region_tags (("// <A>\n  x\n// </A>\n// <A>\n  y\n// </A>").data))
      = some (("y").data) ∧
    some (("y").data) ≠ some (dedent (joinNl [("  x").data])) := by
  decide

theorem parse_region_tags_nesting_witness :
    openMarker? (("// <A>").data) = some (("A").data) ∧
    openMarker? (("// <B>").data) = some (("B").data) ∧
    List.foldl regStep ⟨none, [], []⟩
        (("// <A>").data :: ([("  x").data] ++ ("// <B>").data :: []))
      = List.foldl regStep ⟨some (("B").data), [], (⟨none, [], []⟩ : RState).regions⟩ [] :=
  ⟨by decide, by decide,
    parse_region_tags_nesting ⟨none, [], []⟩ (("// <A>").data) (("// <B>").data)
      [("  x").data] [] (("A").data) (("B").data)
      (by decide) (by decide) (by decide)⟩

/-! ### `inject_tech_preview_banner` -/

def TECH_PREVIEW_BANNER : List Char :=
  ("\n:::caution Technical Preview\nThe C# SDK is a **technical preview** available from Camunda 8.9. It will become fully supported in Camunda 8.10. Its API surface may change in future releases without following semver.\n:::\n").data

/-- Backtracking tail of `#\s+.+$`: when the whitespace run reaches the end of
the input, `\s+` retreats to the largest `k ≥ 1` whose following character is
not a newline (`.` may then consume trailing non-newline whitespace). -/
def backK (r : List Char) : Nat → Option Nat
  | 0 => none
  | Nat.succ n =>
    if ((r[Nat.succ n]?).any (fun c => !(c = '\n'))) = true then
      some (Nat.succ n + ((r.drop (Nat.succ n)).takeWhile (fun c => !(c = '\n'))).length)
    else backK r n

/-- Try to match `\s+.+$` at the characters following a `#`; returns the
offset of the match end relative to the character after the `#`. -/
def h1TryAt (r : List Char) : Option Nat :=
  if (r.takeWhile wsChar).length = 0 then none
  else if (r.takeWhile wsChar).length < r.length then
    some ((r.takeWhile wsChar).length +
      ((r.drop ((r.takeWhile wsChar).length)).takeWhile (fun c => !(c = '\n'))).length)
  else backK r ((r.takeWhile wsChar).length - 1)

/-- `re.search(r"^#\s+.+$", content, re.MULTILINE)`: scan left to right,
trying the pattern at every line start; returns (start, end) of the first
match. -/
def h1Scan : Bool → Nat → List Char → Option (Nat × Nat)
  | _, _, [] => none
  | atStart, pos, c :: rest =>
    if atStart = true ∧ c = '#' then
      match h1TryAt rest with
      | some k => some (pos, pos + 1 + k)
      | none => h1Scan (decide (c = '\n')) (pos + 1) rest
    else h1Scan (decide (c = '\n')) (pos + 1) rest

/-- `inject_tech_preview_banner`: insert the banner right after the end of the
first `^#\s+.+$` match; unchanged when there is no match. -/
def inject_tech_preview_banner (content : List Char) : List Char :=
  match h1Scan true 0 content with
  | some (_, e) => content.take e ++ ('\n' :: TECH_PREVIEW_BANNER) ++ content.drop e
  | none => content

/-- Declarative description of a whitespace character at index `i`. -/
def wsAt (s : List Char) (i : Nat) : Prop := ((s[i]?).any wsChar) = true

/-- Declarative description of a non-newline character at index `i`. -/
def nonNlAt (s : List Char) (i : Nat) : Prop :=
  ((s[i]?).any (fun c => !(c = '\n'))) = true

def LineStartAt (s : List Char) (p : Nat) : Prop :=
  p = 0 ∨ (1 ≤ p ∧ s[p - 1]? = some '\n')

/-- The `\s+.+` tail of a match at `p`: `k ≥ 1` whitespace characters at
indices `p+1 .. p+k`, then a non-newline character at `p+k+1`. -/
def validKAt (s : List Char) (p k : Nat) : Prop :=
  1 ≤ k ∧ (∀ j ∈ List.range (k + 1), 1 ≤ j → wsAt s (p + j)) ∧ nonNlAt s (p + k + 1)

/-- A match of `^#\s+.+$` (with `re.MULTILINE` semantics, where `\s` may span
newlines) starting at index `p`. -/
def H1At (s : List Char) (p : Nat) : Prop :=
  LineStartAt s p ∧ s[p]? = some '#' ∧ ∃ k ∈ List.range (s.length + 1), validKAt s p k

def HasH1 (s : List Char) : Prop := ∃ p ∈ List.range (s.length + 1), H1At s p

/-- `e` is the end of the regex match starting at `p`: the whitespace run `k`
is the greedy (maximal) one, `.+$` then extends from index `p+k+1` up to but
not including `e`, and `e` carries a newline or is past the end of the
input — i.e. the match runs to the end of its line. -/
def MatchEndAt (s : List Char) (p e : Nat) : Prop :=
  ∃ k, validKAt s p k ∧ (∀ k2, validKAt s p k2 → k2 ≤ k) ∧
    p + k + 1 < e ∧ (∀ m, p + k + 1 ≤ m → m < e → nonNlAt s m) ∧ ¬ nonNlAt s e

instance (s : List Char) (p k : Nat) : Decidable (validKAt s p k) := by
  unfold validKAt wsAt nonNlAt
  infer_instance

instance (s : List Char) (p : Nat) : Decidable (H1At s p) := by
  unfold H1At LineStartAt
  infer_instance

instance (s : List Char) : Decidable (HasH1 s) := by
  unfold HasH1
  infer_instance

theorem takeWhile_pos_sat {p : Char → Bool} :
    ∀ (r : List Char) (i : Nat), i < (r.takeWhile p).length →
      ((r[i]?).any p) = true := by
  intro r
  induction r with
  | nil => intro i h; simp at h
  | cons c rest ih =>
    intro i h
    rw [List.takeWhile_cons] at h
    split at h
    · next hc =>
      cases i with
      | zero => simpa using hc
      | succ n =>
        simp only [List.length_cons] at h
        have := ih n (by omega)
        simpa using this
    · simp at h

theorem takeWhile_len_le {p : Char → Bool} :
    ∀ (r : List Char), (r.takeWhile p).length ≤ r.length := by
  intro r
  induction r with
  | nil => simp
  | cons c rest ih =>
    rw [List.takeWhile_cons]
    split
    · simpa using ih
    · simp

theorem takeWhile_stop {p : Char → Bool} :
    ∀ (r : List Char), (r.takeWhile p).length < r.length →
      ((r[(r.takeWhile p).length]?).any (fun c => !(p c))) = true := by
  intro r
  induction r with
  | nil => intro h; simp at h
  | cons c rest ih =>
    intro h
    by_cases hc : p c = true
    · rw [List.takeWhile_cons, if_pos hc] at h ⊢
      simp only [List.length_cons] at h ⊢
      rw [List.getElem?_cons_succ]
      exact ih (by omega)
    · rw [List.takeWhile_cons, if_neg hc] at h ⊢
      have hfc : p c = false := by revert hc; cases (p c) <;> simp
      simp [hfc]

theorem any_true_lt_length {f : Char → Bool} {l : List Char} {i : Nat}
    (h : ((l[i]?).any f) = true) : i < l.length := by
  by_contra hge
  rw [List.getElem?_eq_none (by omega)] at h
  simp at h

theorem takeWhile_len_zero {p : Char → Bool} {l : List Char}
    (h : (l.takeWhile p).length = 0) : ((l[0]?).any p) = false := by
  cases l with
  | nil => rfl
  | cons c tl =>
    rw [List.takeWhile_cons] at h
    split at h
    · simp at h
    · next hc =>
      simp only [List.getElem?_cons_zero, Option.any_some]
      revert hc
      cases (p c) <;> simp

theorem takeWhile_len_pos {p : Char → Bool} {l : List Char} {c : Char}
    (h0 : l[0]? = some c) (hc : p c = true) : 1 ≤ (l.takeWhile p).length := by
  cases l with
  | nil => simp at h0
  | cons d tl =>
    have hd : d = c := by simpa using h0
    rw [List.takeWhile_cons, hd, if_pos hc]
    simp

/-- The `\s+.+` tail in suffix coordinates: for `r` the characters after the
`#`, `k ≥ 1` whitespace characters at indices `0 .. k-1`, then a non-newline
character at index `k`. -/
def validKr (r : List Char) (k : Nat) : Prop :=
  1 ≤ k ∧ (∀ i, i < k → ((r[i]?).any wsChar) = true) ∧
    ((r[k]?).any (fun c => !(c = '\n'))) = true

theorem validKAt_iff (s : List Char) (p k : Nat) (r : List Char)
    (hdrop : s.drop (p + 1) = r) : validKAt s p k ↔ validKr r k := by
  have hidx : ∀ i, r[i]? = s[p + 1 + i]? := by
    intro i
    rw [← hdrop, List.getElem?_drop]
  unfold validKAt validKr wsAt nonNlAt
  constructor
  · rintro ⟨h1, h2, h3⟩
    refine ⟨h1, ?_, ?_⟩
    · intro i hi
      have hji := h2 (i + 1) (by simp only [List.mem_range]; omega) (by omega)
      have heq : p + (i + 1) = p + 1 + i := by omega
      rw [heq] at hji
      rw [hidx i]
      exact hji
    · have heq : p + k + 1 = p + 1 + k := by omega
      rw [heq] at h3
      rw [hidx k]
      exact h3
  · rintro ⟨h1, h2, h3⟩
    refine ⟨h1, ?_, ?_⟩
    · intro j hj hj1
      simp only [List.mem_range] at hj
      have hji := h2 (j - 1) (by omega)
      rw [hidx (j - 1)] at hji
      have heq : p + 1 + (j - 1) = p + j := by omega
      rw [heq] at hji
      exact hji
    · rw [hidx k] at h3
      have heq : p + 1 + k = p + k + 1 := by omega
      rw [heq] at h3
      exact h3

theorem backK_none (r : List Char) : ∀ n, backK r n = none →
    ∀ m, 1 ≤ m → m ≤ n → ((r[m]?).any (fun c => !(c = '\n'))) = false := by
  intro n
  induction n with
  | zero => intro _ m h1 h2; exact absurd h2 (by omega)
  | succ nn ih =>
    intro h m h1 h2
    unfold backK at h
    split at h
    · cases h
    · next hcond =>
      rcases Nat.lt_or_ge m (nn + 1) with hlt | hge
      · exact ih h m h1 (by omega)
      · have hm : m = nn + 1 := by omega
        subst hm
        revert hcond
        cases ((r[nn + 1]?).any (fun c => !(c = '\n'))) <;> simp

theorem backK_some (r : List Char) : ∀ n e, backK r n = some e →
    ∃ k0, 1 ≤ k0 ∧ k0 ≤ n ∧ ((r[k0]?).any (fun c => !(c = '\n'))) = true ∧
      (∀ m, k0 < m → m ≤ n → ((r[m]?).any (fun c => !(c = '\n'))) = false) ∧
      e = k0 + ((r.drop k0).takeWhile (fun c => !(c = '\n'))).length := by
  intro n
  induction n with
  | zero => intro e h; simp [backK] at h
  | succ nn ih =>
    intro e h
    unfold backK at h
    split at h
    · next hcond =>
      refine ⟨nn + 1, by omega, le_refl _, hcond, ?_, (Option.some_inj.mp h).symm⟩
      intro m hm1 hm2
      exact absurd hm2 (by omega)
    · next hcond =>
      obtain ⟨k0, a1, a2, a3, a4, a5⟩ := ih e h
      refine ⟨k0, a1, by omega, a3, ?_, a5⟩
      intro m hm1 hm2
      rcases Nat.lt_or_ge m (nn + 1) with hlt | hge
      · exact a4 m hm1 (by omega)
      · have hm : m = nn + 1 := by omega
        subst hm
        revert hcond
        cases ((r[nn + 1]?).any (fun c => !(c = '\n'))) <;> simp

/-- When `h1TryAt` succeeds, the whitespace run it took is a valid and maximal
one, and the returned offset is the end of the line of the first matched
non-newline character. -/
theorem h1TryAt_some_spec (r : List Char) (e : Nat) (h : h1TryAt r = some e) :
    ∃ k, validKr r k ∧ (∀ k2, validKr r k2 → k2 ≤ k) ∧
      e = k + ((r.drop k).takeWhile (fun c => !(c = '\n'))).length := by
  unfold h1TryAt at h
  split at h
  · cases h
  · next hw0 =>
    split at h
    · next hwlt =>
      have hvalid : validKr r (r.takeWhile wsChar).length := by
        refine ⟨by omega, ?_, ?_⟩
        · intro i hi; exact takeWhile_pos_sat r i hi
        · have hs := takeWhile_stop (p := wsChar) r hwlt
          cases hge : r[(r.takeWhile wsChar).length]? with
          | none => rw [hge] at hs; simp at hs
          | some c =>
            rw [hge] at hs
            simp only [Option.any_some] at hs ⊢
            have hfc : wsChar c = false := by revert hs; cases (wsChar c) <;> simp
            have hnn : ¬(c = '\n') := by
              intro hceq
              rw [hceq] at hfc
              simp [wsChar] at hfc
            simpa using hnn
      refine ⟨(r.takeWhile wsChar).length, hvalid, ?_, (Option.some_inj.mp h).symm⟩
      intro k2 hk2
      by_contra hgt
      push_neg at hgt
      have hws := hk2.2.1 (r.takeWhile wsChar).length (by omega)
      have hs := takeWhile_stop (p := wsChar) r hwlt
      cases hge : r[(r.takeWhile wsChar).length]? with
      | none => rw [hge] at hws; simp at hws
      | some c =>
        rw [hge] at hws hs
        simp only [Option.any_some] at hws hs
        rw [hws] at hs
        simp at hs
    · next hwge =>
      obtain ⟨k0, a1, a2, a3, a4, a5⟩ := backK_some r _ e h
      have hwlen : (r.takeWhile wsChar).length = r.length := by
        have hle2 := takeWhile_len_le (p := wsChar) r
        omega
      refine ⟨k0, ⟨a1, ?_, a3⟩, ?_, a5⟩
      · intro i hi
        exact takeWhile_pos_sat r i (by omega)
      · intro k2 hk2
        have hk2lt : k2 < r.length := any_true_lt_length hk2.2.2
        by_contra hgt
        push_neg at hgt
        have hf := a4 k2 (by omega) (by omega)
        rw [hk2.2.2] at hf
        cases hf

/-- When `h1TryAt` fails, no whitespace run can complete a match here. -/
theorem h1TryAt_none_spec (r : List Char) (h : h1TryAt r = none) :
    ∀ k, ¬ validKr r k := by
  intro k hk
  unfold h1TryAt at h
  split at h
  · next hw0 =>
    have h0 : ((r[0]?).any wsChar) = false := takeWhile_len_zero hw0
    have h1 := hk.2.1 0 hk.1
    rw [h1] at h0
    cases h0
  · next hw0 =>
    split at h
    · cases h
    · next hwge =>
      have hwlen : (r.takeWhile wsChar).length = r.length := by
        have hle2 := takeWhile_len_le (p := wsChar) r
        omega
      have hklt : k < r.length := any_true_lt_length hk.2.2
      have hchk := backK_none r ((r.takeWhile wsChar).length - 1) h k hk.1 (by omega)
      rw [hk.2.2] at hchk
      cases hchk

/-- Completeness of the scan: if it returns `none`, no position at or past
`pos` starts a match (the `atStart` flag tracks line starts exactly). -/
theorem h1Scan_none_complete (s : List Char) :
    ∀ (r : List Char) (atStart : Bool) (pos : Nat),
    s.drop pos = r → (atStart = true ↔ LineStartAt s pos) →
    h1Scan atStart pos r = none → ∀ q, pos ≤ q → ¬ H1At s q := by
  intro r
  induction r with
  | nil =>
    intro atStart pos hdrop hline h q hq hH1
    have hlen : s.length ≤ pos := by
      have hl := congrArg List.length hdrop
      rw [List.length_drop] at hl
      simp only [List.length_nil] at hl
      omega
    have h21 := hH1.2.1
    rw [List.getElem?_eq_none (by omega)] at h21
    cases h21
  | cons c rest ih =>
    intro atStart pos hdrop hline h q hq hH1
    have hget : s[pos]? = some c := by
      have h0 : (s.drop pos)[0]? = some c := by rw [hdrop]; simp
      rw [List.getElem?_drop] at h0
      simpa using h0
    have hdrop2 : s.drop (pos + 1) = rest := by
      have h0 : (s.drop pos).drop 1 = rest := by rw [hdrop]; rfl
      rw [List.drop_drop] at h0
      simpa using h0
    have hnext : (decide (c = '\n') = true) ↔ LineStartAt s (pos + 1) := by
      constructor
      · intro hdec
        have hcnl : c = '\n' := of_decide_eq_true hdec
        exact Or.inr ⟨by omega, by simpa [hcnl] using hget⟩
      · intro hls
        rcases hls with h0 | ⟨hge1, hnl⟩
        · exact absurd h0 (by omega)
        · simp only [Nat.add_sub_cancel] at hnl
          rw [hget] at hnl
          exact decide_eq_true (Option.some_inj.mp hnl)
    have hrec : h1Scan (decide (c = '\n')) (pos + 1) rest = none := by
      unfold h1Scan at h
      split at h
      · cases htry : h1TryAt rest with
        | some k =>
          rw [htry] at h
          have hbad : some (pos, pos + 1 + k) = (none : Option (Nat × Nat)) := h
          cases hbad
        | none =>
          rw [htry] at h
          exact h
      · exact h
    rcases Nat.eq_or_lt_of_le hq with heq | hgt
    · subst heq
      unfold h1Scan at h
      split at h
      · next hcond =>
        cases htry : h1TryAt rest with
        | some k =>
          rw [htry] at h
          have hbad : some (pos, pos + 1 + k) = (none : Option (Nat × Nat)) := h
          cases hbad
        | none =>
          obtain ⟨kk, hkmem, hkval⟩ := hH1.2.2
          exact h1TryAt_none_spec rest htry kk ((validKAt_iff s pos kk rest hdrop2).mp hkval)
      · next hcond =>
        by_cases hst : atStart = true
        · have hcneq : ¬(c = '#') := fun hcc => hcond ⟨hst, hcc⟩
          exact hcneq (Option.some_inj.mp (hget.symm.trans hH1.2.1))
        · exact hst (hline.mpr hH1.1)
    · exact ih (decide (c = '\n')) (pos + 1) hdrop2 hnext hrec q hgt hH1

/-- Soundness and minimality of the scan: a returned pair `(p, e)` is a match
start `p` that is the first one at or past `pos`, with `e` the end of that
match (greedy whitespace run, then to the end of the line). -/
theorem h1Scan_some_first (s : List Char) :
    ∀ (r : List Char) (atStart : Bool) (pos : Nat),
    s.drop pos = r → (atStart = true ↔ LineStartAt s pos) →
    ∀ p e, h1Scan atStart pos r = some (p, e) →
      pos ≤ p ∧ H1At s p ∧ (∀ q, pos ≤ q → q < p → ¬ H1At s q) ∧ MatchEndAt s p e := by
  intro r
  induction r with
  | nil => intro atStart pos hdrop hline p e h; simp [h1Scan] at h
  | cons c rest ih =>
    intro atStart pos hdrop hline p e h
    have hget : s[pos]? = some c := by
      have h0 : (s.drop pos)[0]? = some c := by rw [hdrop]; simp
      rw [List.getElem?_drop] at h0
      simpa using h0
    have hdrop2 : s.drop (pos + 1) = rest := by
      have h0 : (s.drop pos).drop 1 = rest := by rw [hdrop]; rfl
      rw [List.drop_drop] at h0
      simpa using h0
    have hnext : (decide (c = '\n') = true) ↔ LineStartAt s (pos + 1) := by
      constructor
      · intro hdec
        have hcnl : c = '\n' := of_decide_eq_true hdec
        exact Or.inr ⟨by omega, by simpa [hcnl] using hget⟩
      · intro hls
        rcases hls with h0 | ⟨hge1, hnl⟩
        · exact absurd h0 (by omega)
        · simp only [Nat.add_sub_cancel] at hnl
          rw [hget] at hnl
          exact decide_eq_true (Option.some_inj.mp hnl)
    have hposlt : pos < s.length := by
      have hlen := congrArg List.length hdrop
      rw [List.length_drop] at hlen
      simp only [List.length_cons] at hlen
      omega
    unfold h1Scan at h
    split at h
    · next hcond =>
      cases htry : h1TryAt rest with
      | some k' =>
        rw [htry] at h
        have hpe : some (pos, pos + 1 + k') = some (p, e) := h
        have hpair : (pos, pos + 1 + k') = (p, e) := Option.some_inj.mp hpe
        have hp : pos = p := congrArg Prod.fst hpair
        have he : pos + 1 + k' = e := congrArg Prod.snd hpair
        subst hp
        subst he
        obtain ⟨k, hkval, hkmax, hke⟩ := h1TryAt_some_spec rest k' htry
        have hrestlen : rest.length = s.length - (pos + 1) := by
          rw [← hdrop2, List.length_drop]
        have hkub := any_true_lt_length hkval.2.2
        refine ⟨le_refl pos, ?_, ?_, ?_⟩
        · refine ⟨hline.mp hcond.1, by rw [hget, hcond.2],
            ⟨k, ?_, (validKAt_iff s pos k rest hdrop2).mpr hkval⟩⟩
          simp only [List.mem_range]
          omega
        · intro q hq1 hq2
          exact absurd hq2 (by omega)
        · refine ⟨k, (validKAt_iff s pos k rest hdrop2).mpr hkval, ?_, ?_, ?_, ?_⟩
          · intro k2 hk2
            exact hkmax k2 ((validKAt_iff s pos k2 rest hdrop2).mp hk2)
          · have hrun : 1 ≤ ((rest.drop k).takeWhile (fun c => !(c = '\n'))).length := by
              cases hgk : rest[k]? with
              | none =>
                have h22 := hkval.2.2
                rw [hgk] at h22
                simp at h22
              | some c2 =>
                have h22 := hkval.2.2
                rw [hgk] at h22
                simp only [Option.any_some] at h22
                have h00 : (rest.drop k)[0]? = some c2 := by
                  rw [List.getElem?_drop]
                  simpa using hgk
                exact takeWhile_len_pos h00 h22
            omega
          · intro m hm1 hm2
            unfold nonNlAt
            have hidx2 : (rest.drop k)[m - (pos + k + 1)]? = s[m]? := by
              rw [List.getElem?_drop, ← hdrop2, List.getElem?_drop]
              congr 1
              omega
            rw [← hidx2]
            apply takeWhile_pos_sat
            omega
          · unfold nonNlAt
            intro hcontra
            have hidxr : ∀ i, rest[i]? = s[pos + 1 + i]? := by
              intro i
              rw [← hdrop2, List.getElem?_drop]
            have hidx3 :
                (rest.drop k)[((rest.drop k).takeWhile (fun c => !(c = '\n'))).length]?
                  = s[pos + 1 + k']? := by
              rw [List.getElem?_drop, hidxr]
              congr 1
              omega
            rw [← hidx3] at hcontra
            by_cases hlt2 : ((rest.drop k).takeWhile (fun c => !(c = '\n'))).length
                < (rest.drop k).length
            · have hs := takeWhile_stop (p := fun c => !(c = '\n')) (rest.drop k) hlt2
              cases hgx :
                  (rest.drop k)[((rest.drop k).takeWhile (fun c => !(c = '\n'))).length]? with
              | none =>
                rw [hgx] at hcontra
                simp at hcontra
              | some c2 =>
                rw [hgx] at hcontra hs
                simp only [Option.any_some] at hcontra hs
                rw [hcontra] at hs
                simp at hs
            · have hnone :
                  (rest.drop k)[((rest.drop k).takeWhile (fun c => !(c = '\n'))).length]?
                    = none := by
                apply List.getElem?_eq_none
                have hle2 := takeWhile_len_le (p := fun c => !(c = '\n')) (rest.drop k)
                omega
              rw [hnone] at hcontra
              simp at hcontra
      | none =>
        rw [htry] at h
        have hnot : ¬ H1At s pos := by
          intro hH1
          obtain ⟨kk, hkmem, hkval⟩ := hH1.2.2
          exact h1TryAt_none_spec rest htry kk ((validKAt_iff s pos kk rest hdrop2).mp hkval)
        obtain ⟨ha, hb, hcI, hd⟩ := ih (decide (c = '\n')) (pos + 1) hdrop2 hnext p e h
        refine ⟨by omega, hb, ?_, hd⟩
        intro q hq1 hq2
        rcases Nat.eq_or_lt_of_le hq1 with heq | hgt2
        · subst heq
          exact hnot
        · exact hcI q hgt2 hq2
    · next hcond =>
      have hnot : ¬ H1At s pos := by
        intro hH1
        by_cases hst : atStart = true
        · have hcneq : ¬(c = '#') := fun hcc => hcond ⟨hst, hcc⟩
          exact hcneq (Option.some_inj.mp (hget.symm.trans hH1.2.1))
        · exact hst (hline.mpr hH1.1)
      obtain ⟨ha, hb, hcI, hd⟩ := ih (decide (c = '\n')) (pos + 1) hdrop2 hnext p e h
      refine ⟨by omega, hb, ?_, hd⟩
      intro q hq1 hq2
      rcases Nat.eq_or_lt_of_le hq1 with heq | hgt2
      · subst heq
        exact hnot
      · exact hcI q hgt2 hq2

/-- Amended claim C6: `inject_tech_preview_banner` returns its input unchanged
exactly when the input has no match of `^#\s+.+$` under `re.MULTILINE`
semantics (where `\s+` may span newlines); when a match exists, the output is
the input with a newline and the banner spliced in at exactly one position:
the end `e` of the first match, where the match starts at the least position
`p` starting a match, takes the greedy (maximal) whitespace run after the
`#`, and extends to the end of the line of the first matched text character. -/
theorem inject_banner_spec (s : List Char) :
    (¬ HasH1 s → inject_tech_preview_banner s = s) ∧
    (HasH1 s →
      ∃ p e, H1At s p ∧ (∀ q, q < p → ¬ H1At s q) ∧ MatchEndAt s p e ∧
        inject_tech_preview_banner s
          = s.take e ++ ('\n' :: TECH_PREVIEW_BANNER) ++ s.drop e) := by
  have hstart : (true = true) ↔ LineStartAt s 0 :=
    ⟨fun _ => Or.inl rfl, fun _ => rfl⟩
  constructor
  · intro hno
    unfold inject_tech_preview_banner
    cases hscan : h1Scan true 0 s with
    | none => rfl
    | some pe =>
      obtain ⟨p, e⟩ := pe
      obtain ⟨-, hb, -, -⟩ := h1Scan_some_first s s true 0 (by simp) hstart p e hscan
      have hplt : p < s.length := by
        by_contra hge
        have h21 := hb.2.1
        rw [List.getElem?_eq_none (by omega)] at h21
        cases h21
      exact absurd ⟨p, by simp only [List.mem_range]; omega, hb⟩ hno
  · intro hyes
    cases hscan : h1Scan true 0 s with
    | none =>
      exfalso
      obtain ⟨p, hp, hH1⟩ := hyes
      exact h1Scan_none_complete s s true 0 (by simp) hstart hscan p (by omega) hH1
    | some pe =>
      obtain ⟨p, e⟩ := pe
      obtain ⟨-, hb, hfirst, hend⟩ := h1Scan_some_first s s true 0 (by simp) hstart p e hscan
      refine ⟨p, e, hb, ?_, hend, ?_⟩
      · intro q hq
        exact hfirst q (by omega) hq
      · unfold inject_tech_preview_banner
        rw [hscan]

theorem inject_banner_spec_witness :
    (¬ HasH1 (("no heading ## here").data) ∧
      inject_tech_preview_banner (("no heading ## here").data)
        = ("no heading ## here").data) ∧
    (HasH1 (("# Title\nbody").data) ∧
      ∃ p e, H1At (("# Title\nbody").data) p ∧
        (∀ q, q < p → ¬ H1At (("# Title\nbody").data) q) ∧
        MatchEndAt (("# Title\nbody").data) p e ∧
        inject_tech_preview_banner (("# Title\nbody").data)
          = (("# Title\nbody").data).take e
            ++ ('\n' :: TECH_PREVIEW_BANNER) ++ (("# Title\nbody").data).drop e) :=
  ⟨⟨by decide, (inject_banner_spec (("no heading ## here").data)).1 (by decide)⟩,
   ⟨by decide, (inject_banner_spec (("# Title\nbody").data)).2 (by decide)⟩⟩

/-- A line of the form `# heading` (claim C6's reading of a "top-level
heading line": `#` followed by whitespace and text, within one line). -/
def isH1Line (l : List Char) : Bool :=
  match l with
  | '#' :: r => !(r.takeWhile wsChar).isEmpty && !(r.dropWhile wsChar).isEmpty
  | _ => false

/-- Counterexample to claim C6 as stated: the input `"#\nX"` contains no line
that is a top-level heading, yet the function does not return it unchanged
(the `\s+` of the heading regex matches across the newline). -/
theorem inject_banner_cex :
    (∀ l ∈ pySplitlines (("#\nX").data), isH1Line l = false) ∧
    inject_tech_preview_banner (("#\nX").data) ≠ ("#\nX").data := by
  decide

/-! ### Link rewriting: `rewrite_camunda_docs_links` / `_rewrite_landing_links`

The pattern `\[([^\]]*)\]\(https?://docs\.camunda\.io/docs/(?:next/)?(.*?)\)`
is matched deterministically: `[^\]]*` runs to the first `]`; `https?` takes
the optional `s` greedily (no other alternative can succeed); `(?:next/)?` is
taken greedily when present (backtracking cannot change the outcome since
`next/` contains neither `)` nor a newline); `(.*?)` runs to the first `)`
with no intervening newline. -/

def HTTP4 : List Char := ("http").data
def SCHEME_TAIL : List Char := ("://docs.camunda.io/docs/").data
def NEXT_SEG : List Char := ("next/").data
def OVERRIDE_OLD : List Char := ("camunda-api-rest").data
def OVERRIDE_NEW : List Char := ("orchestration-cluster-api-rest").data

/-- `url_path.rstrip("/")`. -/
def dropTrailingSlashes (l : List Char) : List Char :=
  (l.reverse.dropWhile (fun c => c = '/')).reverse

/-- Python `s.replace(pat, rep)`: all non-overlapping occurrences, scanning
left to right (fuel-based recursion, fuel = input length). -/
def replaceAllAux (pat rep : List Char) : Nat → List Char → List Char
  | _, [] => []
  | 0, s => s
  | Nat.succ f, c :: rest =>
    if pat ≠ [] ∧ pat.isPrefixOf (c :: rest) = true then
      rep ++ replaceAllAux pat rep f ((c :: rest).drop pat.length)
    else c :: replaceAllAux pat rep f rest

def replaceAll (pat rep s : List Char) : List Char := replaceAllAux pat rep s.length s

/-- `"../" * depth`. -/
def dotsPrefix : Nat → List Char
  | 0 => []
  | Nat.succ n => ("../").data ++ dotsPrefix n

/-- The emitted url path: trailing slashes stripped, then the static override
table applied. -/
def emitPath (p : List Char) : List Char :=
  replaceAll OVERRIDE_OLD OVERRIDE_NEW (dropTrailingSlashes p)

/-- The substituted text `f"[{text}]({prefix}{url_path}.md)"`. -/
def linkRepl (depth : Nat) (text path : List Char) : List Char :=
  '[' :: (text ++ ']' :: '(' :: (dotsPrefix depth ++ emitPath path ++ (".md)").data))

/-- The optional `s` of `https?`. -/
def stripS (r : List Char) : List Char := if r.head? = some 's' then r.tail else r

/-- The optional `next/` segment. -/
def stripNext (r : List Char) : List Char :=
  match dropLit NEXT_SEG r with
  | some rr => rr
  | none => r


/-- The leading `\[` of the link pattern. -/
def headBracket? (s : List Char) : Option (List Char) :=
  match s with
  | c0 :: r1 => if c0 = '[' then some r1 else none
  | [] => none

/-- The `\]\(` after the link text. -/
def brkt? (dw : List Char) : Option (List Char) :=
  match dw with
  | d1 :: d2 :: r3 => if d1 = ']' ∧ d2 = '(' then some r3 else none
  | _ => none

/-- The closing `\)` after the url path. -/
def closeParen? (dw2 : List Char) : Option (List Char) :=
  match dw2 with
  | d3 :: r8 => if d3 = ')' then some r8 else none
  | [] => none

/-- One attempted match of the docs-link regex at the head of the input;
returns (link text, url path, remainder). -/
def linkMatch? (s : List Char) : Option (List Char × List Char × List Char) :=
  (headBracket? s).bind fun r1 =>
    (brkt? (r1.dropWhile (fun c => !(c = ']')))).bind fun r3 =>
      (dropLit HTTP4 r3).bind fun r4 =>
        (dropLit SCHEME_TAIL (stripS r4)).bind fun r6 =>
          (closeParen?
              ((stripNext r6).dropWhile (fun c => !(c = ')') && !(c = '\n')))).bind
            fun r8 =>
              some (r1.takeWhile (fun c => !(c = ']')),
                    (stripNext r6).takeWhile (fun c => !(c = ')') && !(c = '\n')),
                    r8)

theorem dropWhile_len_le {p : Char → Bool} :
    ∀ (r : List Char), (r.dropWhile p).length ≤ r.length := by
  intro r
  induction r with
  | nil => simp
  | cons c rest ih =>
    rw [List.dropWhile_cons]
    split
    · simp only [List.length_cons]; omega
    · simp

theorem stripS_len (r : List Char) : (stripS r).length ≤ r.length := by
  unfold stripS
  split
  · cases r <;> simp
  · simp

theorem stripNext_len (r : List Char) : (stripNext r).length ≤ r.length := by
  unfold stripNext
  split
  · next rr hr => exact dropLit_length NEXT_SEG r rr hr
  · simp

theorem headBracket?_len {s r1 : List Char} (h : headBracket? s = some r1) :
    r1.length + 1 = s.length := by
  cases s with
  | nil => simp [headBracket?] at h
  | cons c0 rr =>
    simp only [headBracket?] at h
    split at h
    · rw [Option.some_inj.mp h]; simp
    · cases h

theorem brkt?_len {dw r3 : List Char} (h : brkt? dw = some r3) :
    r3.length + 2 = dw.length := by
  cases dw with
  | nil => simp [brkt?] at h
  | cons d1 dw2 =>
    cases dw2 with
    | nil => simp [brkt?] at h
    | cons d2 rr =>
      simp only [brkt?] at h
      split at h
      · rw [Option.some_inj.mp h]; simp
      · cases h

theorem closeParen?_len {dw r8 : List Char} (h : closeParen? dw = some r8) :
    r8.length + 1 = dw.length := by
  cases dw with
  | nil => simp [closeParen?] at h
  | cons d3 rr =>
    simp only [closeParen?] at h
    split at h
    · rw [Option.some_inj.mp h]; simp
    · cases h

theorem linkMatch?_rest_length :
    ∀ (s t p r : List Char), linkMatch? s = some (t, p, r) → r.length < s.length := by
  intro s t p r h
  unfold linkMatch? at h
  cases hhb : headBracket? s with
  | none => rw [hhb] at h; simp at h
  | some r1 =>
    rw [hhb] at h
    simp only [Option.some_bind] at h
    cases hbr : brkt? (r1.dropWhile (fun c => !(c = ']'))) with
    | none => rw [hbr] at h; simp at h
    | some r3 =>
      rw [hbr] at h
      simp only [Option.some_bind] at h
      cases h4 : dropLit HTTP4 r3 with
      | none => rw [h4] at h; simp at h
      | some r4 =>
        rw [h4] at h
        simp only [Option.some_bind] at h
        cases h6 : dropLit SCHEME_TAIL (stripS r4) with
        | none => rw [h6] at h; simp at h
        | some r6 =>
          rw [h6] at h
          simp only [Option.some_bind] at h
          cases h8 : closeParen?
              ((stripNext r6).dropWhile (fun c => !(c = ')') && !(c = '\n'))) with
          | none => rw [h8] at h; simp at h
          | some r8 =>
            rw [h8] at h
            simp only [Option.some_bind, Option.some_inj] at h
            have e1 := headBracket?_len hhb
            have e2 := brkt?_len hbr
            have e3 := dropWhile_len_le (p := fun c => !(c = ']')) r1
            have e4 := dropLit_length _ _ _ h4
            have e5 := stripS_len r4
            have e6 := dropLit_length _ _ _ h6
            have e7 := stripNext_len r6
            have e8 := dropWhile_len_le
              (p := fun c => !(c = ')') && !(c = '\n')) (stripNext r6)
            have e9 := closeParen?_len h8
            have hr : r8 = r := congrArg (fun x => x.2.2) h
            rw [← hr]
            omega

/-- Scanning loop of `re.sub`: at each position try the pattern; on a match
emit the substitution and continue after the match, else emit the character
and advance (fuel-based recursion, fuel = input length). -/
def rewriteAux (depth : Nat) : Nat → List Char → List Char
  | 0, s => s
  | Nat.succ _, [] => []
  | Nat.succ f, c :: rest =>
    match linkMatch? (c :: rest) with
    | some (t, p, r2) => linkRepl depth t p ++ rewriteAux depth f r2
    | none => c :: rewriteAux depth f rest

def rewriteDocsLinks (depth : Nat) (s : List Char) : List Char :=
  rewriteAux depth s.length s

/-- `rewrite_camunda_docs_links` (`DEPLOYMENT_DEPTH = 3`). -/
def rewrite_camunda_docs_links (s : List Char) : List Char := rewriteDocsLinks 3 s

/-- `_rewrite_landing_links` (`_LANDING_PAGE_DEPTH = 2`). -/
def rewriteLandingLinks (s : List Char) : List Char := rewriteDocsLinks 2 s

/-- No position of the input matches the docs-link pattern. -/
def NoDocsLink (s : List Char) : Prop :=
  ∀ i ∈ List.range (s.length + 1), linkMatch? (s.drop i) = none

instance (s : List Char) : Decidable (NoDocsLink s) := by
  unfold NoDocsLink
  infer_instance

theorem rewriteAux_fuel (depth : Nat) :
    ∀ (f g : Nat) (s : List Char), s.length ≤ f → s.length ≤ g →
      rewriteAux depth f s = rewriteAux depth g s := by
  intro f
  induction f with
  | zero =>
    intro g s hf hg
    have hnil : s = [] := List.length_eq_zero.mp (by omega)
    subst hnil
    cases g <;> rfl
  | succ f ih =>
    intro g s hf hg
    cases s with
    | nil => cases g <;> rfl
    | cons c rest =>
      cases g with
      | zero => simp at hg
      | succ g2 =>
        simp only [List.length_cons] at hf hg
        show (match linkMatch? (c :: rest) with
          | some (t, p, r2) => linkRepl depth t p ++ rewriteAux depth f r2
          | none => c :: rewriteAux depth f rest)
          = (match linkMatch? (c :: rest) with
          | some (t, p, r2) => linkRepl depth t p ++ rewriteAux depth g2 r2
          | none => c :: rewriteAux depth g2 rest)
        cases hm : linkMatch? (c :: rest) with
        | some tpr =>
          obtain ⟨t, p, r2⟩ := tpr
          have hlt := linkMatch?_rest_length (c :: rest) t p r2 hm
          simp only [List.length_cons] at hlt
          show linkRepl depth t p ++ rewriteAux depth f r2
            = linkRepl depth t p ++ rewriteAux depth g2 r2
          rw [ih g2 r2 (by omega) (by omega)]
        | none =>
          show c :: rewriteAux depth f rest = c :: rewriteAux depth g2 rest
          rw [ih g2 rest (by omega) (by omega)]

theorem stripNext_self (w : List Char) : stripNext (NEXT_SEG ++ w) = w := by
  unfold stripNext
  rw [dropLit_self]

theorem linkMatch?_link (text path rest : List Char)
    (htext : ∀ c ∈ text, ¬(c = ']'))
    (hpath : ∀ c ∈ path, ¬(c = ')') ∧ ¬(c = '\n')) :
    linkMatch? ('[' :: (text ++ ']' :: '(' ::
        (HTTP4 ++ 's' :: (SCHEME_TAIL ++ (NEXT_SEG ++ (path ++ ')' :: rest))))))
      = some (text, path, rest) := by
  have hallt : ∀ c ∈ text, (fun c => !(c = ']')) c = true := by
    intro c hc
    simp only [Bool.not_eq_true', decide_eq_false_iff_not]
    exact htext c hc
  have hallp : ∀ c ∈ path, (fun c => !(c = ')') && !(c = '\n')) c = true := by
    intro c hc
    simp only [Bool.and_eq_true, Bool.not_eq_true', decide_eq_false_iff_not]
    exact ⟨(hpath c hc).1, (hpath c hc).2⟩
  have hdw1 : ∀ (B : List Char),
      (text ++ B).dropWhile (fun c => !(c = ']')) = B.dropWhile (fun c => !(c = ']')) :=
    fun B => dropWhile_append_of_all text B hallt
  have htw1 : ∀ (B : List Char),
      (text ++ B).takeWhile (fun c => !(c = ']'))
        = text ++ B.takeWhile (fun c => !(c = ']')) :=
    fun B => takeWhile_append_of_all text B hallt
  have hdw2 : ∀ (B : List Char),
      (path ++ B).dropWhile (fun c => !(c = ')') && !(c = '\n'))
        = B.dropWhile (fun c => !(c = ')') && !(c = '\n')) :=
    fun B => dropWhile_append_of_all path B hallp
  have htw2 : ∀ (B : List Char),
      (path ++ B).takeWhile (fun c => !(c = ')') && !(c = '\n'))
        = path ++ B.takeWhile (fun c => !(c = ')') && !(c = '\n')) :=
    fun B => takeWhile_append_of_all path B hallp
  unfold linkMatch?
  simp [headBracket?, brkt?, closeParen?, stripS, stripNext_self, hdw1, htw1,
    hdw2, htw2, dropLit_self, List.dropWhile_cons, List.takeWhile_cons]

theorem rewriteAux_cons_match (depth f : Nat) (c : Char) (rest2 t p r2 : List Char)
    (hm : linkMatch? (c :: rest2) = some (t, p, r2)) :
    rewriteAux depth (Nat.succ f) (c :: rest2)
      = linkRepl depth t p ++ rewriteAux depth f r2 := by
  show (match linkMatch? (c :: rest2) with
    | some (t, p, r2) => linkRepl depth t p ++ rewriteAux depth f r2
    | none => c :: rewriteAux depth f rest2)
    = linkRepl depth t p ++ rewriteAux depth f r2
  rw [hm]

theorem rewriteDocsLinks_link (depth : Nat) (text path rest : List Char)
    (htext : ∀ c ∈ text, ¬(c = ']'))
    (hpath : ∀ c ∈ path, ¬(c = ')') ∧ ¬(c = '\n')) :
    rewriteDocsLinks depth ('[' :: (text ++ ']' :: '(' ::
        (HTTP4 ++ 's' :: (SCHEME_TAIL ++ (NEXT_SEG ++ (path ++ ')' :: rest))))))
      = linkRepl depth text path ++ rewriteDocsLinks depth rest := by
  have hm := linkMatch?_link text path rest htext hpath
  have hlt := linkMatch?_rest_length _ text path rest hm
  simp only [List.length_cons] at hlt
  calc rewriteDocsLinks depth ('[' :: (text ++ ']' :: '(' ::
        (HTTP4 ++ 's' :: (SCHEME_TAIL ++ (NEXT_SEG ++ (path ++ ')' :: rest))))))
      = rewriteAux depth
          (Nat.succ (text ++ ']' :: '(' ::
            (HTTP4 ++ 's' :: (SCHEME_TAIL ++ (NEXT_SEG ++ (path ++ ')' :: rest))))).length)
          ('[' :: (text ++ ']' :: '(' ::
            (HTTP4 ++ 's' :: (SCHEME_TAIL ++ (NEXT_SEG ++ (path ++ ')' :: rest)))))) := rfl
    _ = linkRepl depth text path ++ rewriteAux depth
          (text ++ ']' :: '(' ::
            (HTTP4 ++ 's' :: (SCHEME_TAIL ++ (NEXT_SEG ++ (path ++ ')' :: rest))))).length
          rest :=
        rewriteAux_cons_match depth _ '[' _ text path rest hm
    _ = linkRepl depth text path ++ rewriteDocsLinks depth rest := by
        rw [rewriteAux_fuel depth _ rest.length rest (by omega) (le_refl _)]
        rfl

theorem rewriteAux_no_match (depth : Nat) :
    ∀ (f : Nat) (s : List Char), s.length ≤ f →
      (∀ i ∈ List.range (s.length + 1), linkMatch? (s.drop i) = none) →
      rewriteAux depth f s = s := by
  intro f
  induction f with
  | zero => intro s hf hno; rfl
  | succ f ih =>
    intro s hf hno
    cases s with
    | nil => rfl
    | cons c rest =>
      have h0 : linkMatch? (c :: rest) = none := by
        have := hno 0 (by simp)
        simpa using this
      have hrest : ∀ i ∈ List.range (rest.length + 1), linkMatch? (rest.drop i) = none := by
        intro i hi
        simp only [List.mem_range] at hi
        have := hno (i + 1) (by simp only [List.length_cons, List.mem_range]; omega)
        simpa using this
      show (match linkMatch? (c :: rest) with
        | some (t, p, r2) => linkRepl depth t p ++ rewriteAux depth f r2
        | none => c :: rewriteAux depth f rest) = c :: rest
      rw [h0]
      show c :: rewriteAux depth f rest = c :: rest
      rw [ih rest (by simp only [List.length_cons] at hf; omega) hrest]

/-- Amended claim C3: the link rewriter returns its input unchanged whenever
no position of the input matches the docs-link pattern, and is therefore
idempotent on such inputs; and it rewrites every matching link
`[text](https://docs.camunda.io/docs/next/path)` to
`[text](../../../path'.md)` at reference-page depth (three `../` levels) and
`[text](../../path'.md)` at landing-page depth (two levels), where `path'` is
the path with any trailing slashes stripped and the static path override
(`camunda-api-rest` → `orchestration-cluster-api-rest`) applied, preserving
the link text exactly.  (Unrestricted idempotence fails; see the
counterexample.) -/
theorem rewrite_links_spec :
    (∀ s : List Char, NoDocsLink s →
      rewrite_camunda_docs_links s = s ∧
      rewriteLandingLinks s = s ∧
      rewrite_camunda_docs_links (rewrite_camunda_docs_links s)
        = rewrite_camunda_docs_links s) ∧
    (∀ text path rest : List Char,
      (∀ c ∈ text, ¬(c = ']')) →
      (∀ c ∈ path, ¬(c = ')') ∧ ¬(c = '\n')) →
      rewrite_camunda_docs_links ('[' :: (text ++ ']' :: '(' ::
          (HTTP4 ++ 's' :: (SCHEME_TAIL ++ (NEXT_SEG ++ (path ++ ')' :: rest))))))
        = '[' :: (text ++ ']' :: '(' :: (dotsPrefix 3 ++
            (replaceAll OVERRIDE_OLD OVERRIDE_NEW (dropTrailingSlashes path) ++
              ((".md)").data ++ rewrite_camunda_docs_links rest)))) ∧
      rewriteLandingLinks ('[' :: (text ++ ']' :: '(' ::
          (HTTP4 ++ 's' :: (SCHEME_TAIL ++ (NEXT_SEG ++ (path ++ ')' :: rest))))))
        = '[' :: (text ++ ']' :: '(' :: (dotsPrefix 2 ++
            (replaceAll OVERRIDE_OLD OVERRIDE_NEW (dropTrailingSlashes path) ++
              ((".md)").data ++ rewriteLandingLinks rest))))) := by
  constructor
  · intro s hno
    have h1 : rewrite_camunda_docs_links s = s :=
      rewriteAux_no_match 3 s.length s (le_refl _) hno
    have h2 : rewriteLandingLinks s = s :=
      rewriteAux_no_match 2 s.length s (le_refl _) hno
    refine ⟨h1, h2, ?_⟩
    rw [h1]
    exact h1
  · intro text path rest htext hpath
    constructor
    · have h := rewriteDocsLinks_link 3 text path rest htext hpath
      simpa [linkRepl, emitPath, List.cons_append, List.append_assoc] using h
    · have h := rewriteDocsLinks_link 2 text path rest htext hpath
      simpa [linkRepl, emitPath, List.cons_append, List.append_assoc] using h

theorem rewrite_links_spec_witness :
    NoDocsLink (("see [the guide](intro.md) here").data) ∧
    rewrite_camunda_docs_links (("see [the guide](intro.md) here").data)
      = ("see [the guide](intro.md) here").data ∧
    rewrite_camunda_docs_links ('[' :: ((("t").data) ++ ']' :: '(' ::
        (HTTP4 ++ 's' :: (SCHEME_TAIL ++
          (NEXT_SEG ++ ((("camunda-api-rest/intro/").data) ++ ')' :: []))))))
      = '[' :: ((("t").data) ++ ']' :: '(' :: (dotsPrefix 3 ++
          (replaceAll OVERRIDE_OLD OVERRIDE_NEW
              (dropTrailingSlashes (("camunda-api-rest/intro/").data)) ++
            ((".md)").data ++ rewrite_camunda_docs_links [])))) :=
  ⟨by decide,
    ((rewrite_links_spec.1 (("see [the guide](intro.md) here").data) (by decide)).1),
    ((rewrite_links_spec.2 (("t").data) (("camunda-api-rest/intro/").data) []
      (by decide) (by decide)).1)⟩

/-- Counterexample to claim C3 as stated: the rewriter is not idempotent.  A
`]` inside a url path survives into the substituted text and can complete a
new match on a second pass. -/
theorem rewrite_links_not_idempotent_cex :
    rewrite_camunda_docs_links (rewrite_camunda_docs_links
        (("[t](https://docs.camunda.io/docs/a[b)](https://docs.camunda.io/docs/q)").data))
      ≠ rewrite_camunda_docs_links
        (("[t](https://docs.camunda.io/docs/a[b)](https://docs.camunda.io/docs/q)").data) := by
  decide

/-! ### `_short_type` -/

def lbrace : Char := Char.ofNat 123
def rbrace : Char := Char.ofNat 125

/-- Split at the first closing brace: the group of `\{([^}]+)\}` is the
nonempty run before the first closing brace, which must exist. -/
def splitClose (l : List Char) : Option (List Char × List Char) :=
  match l.dropWhile (fun c => !(c = rbrace)) with
  | _ :: rest2 =>
    if l.takeWhile (fun c => !(c = rbrace)) = [] then none
    else some (l.takeWhile (fun c => !(c = rbrace)), rest2)
  | [] => none

/-- The substitution pass of `re.sub(r"\{([^}]+)\}", ...)`: each brace group
is replaced by `<` ++ short group ++ `>` where `short` is the recursive
shortening call (fuel-based recursion, fuel = input length). -/
def braceSubAux (short : List Char → List Char) : Nat → List Char → List Char
  | _, [] => []
  | 0, s => s
  | Nat.succ f, c :: rest =>
    if c = lbrace then
      match splitClose rest with
      | some (g, rest2) => '<' :: (short g ++ '>' :: braceSubAux short f rest2)
      | none => c :: braceSubAux short f rest
    else c :: braceSubAux short f rest

/-- `_short_type`: empty input is returned as is; otherwise brace groups are
substituted (recursively shortening the group) and the final dot-delimited
segment of the result is returned. -/
def stAux : Nat → List Char → List Char
  | 0, s => s
  | Nat.succ f, s => if s = [] then s else lastSegment (braceSubAux (stAux f) s.length s)

def shortType (s : List Char) : List Char := stAux (s.length + 1) s

def shortTypeStr (s : String) : String := String.mk (shortType s.data)

theorem braceSubAux_cons (short : List Char → List Char) (f : Nat) (c : Char)
    (rest : List Char) :
    braceSubAux short (f + 1) (c :: rest) =
      if c = lbrace then
        match splitClose rest with
        | some (g, rest2) => '<' :: (short g ++ '>' :: braceSubAux short f rest2)
        | none => c :: braceSubAux short f rest
      else c :: braceSubAux short f rest := rfl

theorem stAux_succ (f : Nat) (s : List Char) :
    stAux (f + 1) s = if s = [] then s
      else lastSegment (braceSubAux (stAux f) s.length s) := rfl

theorem braceSubAux_nil (short : List Char → List Char) (f : Nat) :
    braceSubAux short f [] = [] := by
  cases f <;> rfl

theorem braceSubAux_no_brace (short : List Char → List Char) :
    ∀ (f : Nat) (l : List Char), l.length ≤ f → lbrace ∉ l →
      braceSubAux short f l = l := by
  intro f
  induction f with
  | zero =>
    intro l hf _
    have : l = [] := List.length_eq_zero.mp (by omega)
    subst this
    rfl
  | succ f ih =>
    intro l hf hnb
    cases l with
    | nil => rfl
    | cons c rest =>
      have hc : ¬(c = lbrace) := fun he => hnb (he ▸ List.mem_cons_self _ _)
      rw [braceSubAux_cons, if_neg hc,
        ih rest (by simp only [List.length_cons] at hf; omega)
          (fun hm => hnb (List.mem_cons_of_mem _ hm))]

theorem splitClose_app (g tail : List Char) (hg : rbrace ∉ g) (hne : g ≠ []) :
    splitClose (g ++ rbrace :: tail) = some (g, tail) := by
  have hall : ∀ c ∈ g, (fun c => !(c = rbrace)) c = true := by
    intro c hc
    simp only [Bool.not_eq_true', decide_eq_false_iff_not]
    exact fun he => hg (he ▸ hc)
  unfold splitClose
  rw [dropWhile_append_of_all g _ hall, takeWhile_append_of_all g _ hall]
  simp [List.dropWhile_cons, List.takeWhile_cons, hne]

theorem braceSubAux_single (short : List Char → List Char) :
    ∀ (pre g : List Char), lbrace ∉ pre → lbrace ∉ g → rbrace ∉ g → g ≠ [] →
      braceSubAux short (pre ++ lbrace :: (g ++ [rbrace])).length
          (pre ++ lbrace :: (g ++ [rbrace]))
        = pre ++ '<' :: (short g ++ ['>']) := by
  intro pre
  induction pre with
  | nil =>
    intro g hp hg1 hg2 hne
    simp only [List.nil_append, List.length_cons]
    rw [braceSubAux_cons, if_pos rfl, splitClose_app g [] hg2 hne]
    show '<' :: (short g ++ '>' :: braceSubAux short ((g ++ [rbrace]).length) [])
      = '<' :: (short g ++ ['>'])
    rw [braceSubAux_nil]
  | cons c pre ih =>
    intro g hp hg1 hg2 hne
    have hc : ¬(c = lbrace) := fun he => hp (he ▸ List.mem_cons_self _ _)
    simp only [List.cons_append, List.length_cons]
    rw [braceSubAux_cons, if_neg hc,
      ih g (fun hm => hp (List.mem_cons_of_mem _ hm)) hg1 hg2 hne]

theorem stAux_no_brace : ∀ (f : Nat) (s : List Char), s ≠ [] → lbrace ∉ s →
    1 ≤ f → stAux f s = lastSegment s := by
  intro f
  cases f with
  | zero => intro s _ _ hf; omega
  | succ f =>
    intro s hne hnb _
    rw [stAux_succ, if_neg hne, braceSubAux_no_brace (stAux f) s.length s (le_refl _) hnb]

/-- Amended claim C7: `_short_type` returns the final dot-delimited segment
of a brace-free name; for a name carrying a single brace group `{g}`, the
braces are rewritten to `<...>` where the whole enclosed text `g` (the full
comma-joined parameter list in the multi-argument case) is shortened as one
name to its final dot-delimited segment, and the part before the braces is
then shortened likewise. -/
theorem short_type_spec :
    (∀ s : List Char, s ≠ [] → lbrace ∉ s → shortType s = lastSegment s) ∧
    (∀ pre g : List Char, lbrace ∉ pre → lbrace ∉ g → rbrace ∉ g → g ≠ [] →
      shortType (pre ++ lbrace :: (g ++ [rbrace]))
        = lastSegment pre ++ '<' :: (lastSegment g ++ ['>'])) := by
  constructor
  · intro s hne hnb
    exact stAux_no_brace (s.length + 1) s hne hnb (by omega)
  · intro pre g h1 h2 h3 h4
    have hSne : pre ++ lbrace :: (g ++ [rbrace]) ≠ [] := by simp
    unfold shortType
    rw [stAux_succ, if_neg hSne,
      braceSubAux_single (stAux (pre ++ lbrace :: (g ++ [rbrace])).length) pre g h1 h2 h3 h4,
      stAux_no_brace (pre ++ lbrace :: (g ++ [rbrace])).length g h4 h2
        (by simp only [List.length_append, List.length_cons]; omega),
      lastSegment_append_no_dot pre ('<' :: (lastSegment g ++ ['>'])) ?_]
    intro c hc
    rcases List.mem_cons.mp hc with he | hm
    · rw [he]; decide
    · rcases List.mem_append.mp hm with hm2 | hm3
      · exact fun he => absurd (he ▸ hm2) (lastSegment_no_dot g)
      · rcases List.mem_singleton.mp hm3 with rfl
        decide

theorem short_type_spec_witness :
    shortType (("System.Collections.Generic.List").data)
      = lastSegment (("System.Collections.Generic.List").data) ∧
    shortType ((("System.Collections.Generic.Dictionary").data) ++ lbrace ::
        ((("System.String,My.Type").data) ++ [rbrace]))
      = lastSegment (("System.Collections.Generic.Dictionary").data) ++ '<' ::
        (lastSegment (("System.String,My.Type").data) ++ ['>']) :=
  ⟨short_type_spec.1 (("System.Collections.Generic.List").data) (by decide) (by decide),
   short_type_spec.2 (("System.Collections.Generic.Dictionary").data)
     (("System.String,My.Type").data) (by decide) (by decide) (by decide) (by decide)⟩

/-- Counterexample to claim C7 as stated: for a multi-argument generic the
type arguments are not each shortened; the whole comma-joined argument list
is shortened as one name, so the first argument disappears entirely. -/
theorem short_type_multiarg_cex :
    shortTypeStr ("System.Collections.Generic.Dictionary\x7bSystem.String,My.Type\x7d")
      = ("Dictionary<Type>") ∧
    ¬ (shortTypeStr ("System.Collections.Generic.Dictionary\x7bSystem.String,My.Type\x7d")
      = ("Dictionary<String,Type>")) := by
  decide

/-! ### `_method_group` -/

def GROUP_PREFIXES : List (String × String) :=
  [ ("ProcessInstance", "Process Instances"),
    ("ProcessDefinition", "Process Definitions"),
    ("Job", "Jobs"),
    ("UserTask", "User Tasks"),
    ("DecisionDefinition", "Decision Definitions"),
    ("DecisionRequirements", "Decision Requirements"),
    ("DecisionInstance", "Decision Instances"),
    ("Decision", "Decisions"),
    ("Incident", "Incidents"),
    ("Variable", "Variables"),
    ("FlowNode", "Flow Nodes"),
    ("Element", "Elements"),
    ("Message", "Messages"),
    ("Signal", "Signals"),
    ("Resource", "Resources"),
    ("Deploy", "Deployments"),
    ("Topology", "Cluster"),
    ("Authentication", "Cluster"),
    ("Clock", "Cluster"),
    ("Backpressure", "Cluster"),
    ("License", "Cluster"),
    ("Worker", "Job Workers"),
    ("RunWorkers", "Job Workers"),
    ("Tenant", "Tenants"),
    ("Role", "Roles"),
    ("Group", "Groups"),
    ("Mapping", "Mappings"),
    ("Authorization", "Authorizations"),
    ("AuditLog", "Audit Logs"),
    ("BatchOperation", "Batch Operations"),
    ("DocumentLink", "Documents"),
    ("Document", "Documents"),
    ("AdHocSubProcess", "Ad Hoc Sub-Processes") ]

/-- `re.sub(r"Async$", "", name)`: `$` matches at the end of the string or
just before a final newline. -/
def stripAsync (l : List Char) : List Char :=
  if endsWithL (("Async").data) l = true then l.take (l.length - 5)
  else if endsWithL (("Async\n").data) l = true then l.take (l.length - 6) ++ ['\n']
  else l

/-- The lookup loop of `_method_group`: first entry whose key occurs as a
substring wins, default `"Other"`. -/
def groupScan (base : List Char) : List (String × String) → String
  | [] => "Other"
  | (key, grp) :: rest => if isSubstr key.data base = true then grp else groupScan base rest

def methodGroup (name : String) : String :=
  groupScan (stripAsync name.data) GROUP_PREFIXES

theorem groupScan_spec (base : List Char) :
    ∀ (table : List (String × String)),
      (groupScan base table = "Other" ∧
        ∀ e ∈ table, isSubstr e.1.data base = false) ∨
      (∃ pre e post, table = pre ++ e :: post ∧
        isSubstr e.1.data base = true ∧
        (∀ e2 ∈ pre, isSubstr e2.1.data base = false) ∧
        groupScan base table = e.2) := by
  intro table
  induction table with
  | nil => exact Or.inl ⟨rfl, by simp⟩
  | cons hd tl ih =>
    obtain ⟨k1, g1⟩ := hd
    by_cases hh : isSubstr k1.data base = true
    · refine Or.inr ⟨[], (k1, g1), tl, rfl, hh, by simp, ?_⟩
      show (if isSubstr k1.data base = true then g1 else groupScan base tl) = g1
      rw [if_pos hh]
    · have hf : isSubstr k1.data base = false := by
        revert hh; cases (isSubstr k1.data base) <;> simp
      rcases ih with ⟨h1, h2⟩ | ⟨pre, e, post, heq, he, hpre, hval⟩
      · refine Or.inl ⟨?_, ?_⟩
        · show (if isSubstr k1.data base = true then g1 else groupScan base tl) = "Other"
          rw [if_neg hh]
          exact h1
        · intro e he2
          rcases List.mem_cons.mp he2 with rfl | hm
          · exact hf
          · exact h2 e hm
      · refine Or.inr ⟨(k1, g1) :: pre, e, post, by rw [heq]; rfl, he, ?_, ?_⟩
        · intro e2 he2
          rcases List.mem_cons.mp he2 with rfl | hm
          · exact hf
          · exact hpre e2 hm
        · show (if isSubstr k1.data base = true then g1 else groupScan base tl) = e.2
          rw [if_neg hh]
          exact hval

/-- Amended claim C8: `_method_group` strips the `Async` suffix and then
returns the group label of the first entry of the fixed table (in table
order) whose key occurs anywhere in the stripped name as a substring;
`"Other"` when no key occurs.  (Matching is substring containment, not prefix
matching; see the counterexample.) -/
theorem method_group_spec (name : String) :
    (methodGroup name = "Other" ∧
      ∀ e ∈ GROUP_PREFIXES, isSubstr e.1.data (stripAsync name.data) = false) ∨
    (∃ pre e post, GROUP_PREFIXES = pre ++ e :: post ∧
      isSubstr e.1.data (stripAsync name.data) = true ∧
      (∀ e2 ∈ pre, isSubstr e2.1.data (stripAsync name.data) = false) ∧
      methodGroup name = e.2) :=
  groupScan_spec (stripAsync name.data) GROUP_PREFIXES

/-- Counterexample to claim C8 as stated: for `ActivateJobsAsync` no table
key is a prefix of the stripped name `ActivateJobs`, so prefix semantics
would yield `"Other"`; the code finds `Job` as an inner substring and returns
`"Jobs"`. -/
theorem method_group_substring_cex :
    methodGroup ("ActivateJobsAsync") = ("Jobs") ∧
    (∀ e ∈ GROUP_PREFIXES,
      e.1.data.isPrefixOf (stripAsync (("ActivateJobsAsync").data)) = false) ∧
    ¬ ((("Jobs") : String) = ("Other")) := by
  decide

/-! ### `prune-toc.py` -/

def KEEP_MEMBERS_FOR : List String := ["Camunda.Client.CamundaClient"]

/-- A table-of-contents node: optional `topicUid`, optional `type`, optional
child list (`items`), optional `leaf` flag (`type` and the set-on-prune
`leaf` key are modelled as fields holding `Option` values, so missing keys
are `none`). -/
inductive Toc where
  | mk (topicUid : Option String) (ty : Option String)
       (items : Option (List Toc)) (leaf : Option Bool) : Toc

mutual

/-- The per-node body of the `for item in items` loop of `prune`. -/
def pruneNode : Toc → Toc
  | .mk u ty items leaf =>
    match items with
    | none => .mk u ty none leaf
    | some [] => .mk u ty (some []) leaf
    | some (c :: cs) =>
      if ty = some ("Namespace") then .mk u ty (some (pruneList (c :: cs))) leaf
      else if (u.getD ("")) ∈ KEEP_MEMBERS_FOR then .mk u ty (some (c :: cs)) leaf
      else .mk u ty none (some true)

/-- `prune`, as a pure function on the node list. -/
def pruneList : List Toc → List Toc
  | [] => []
  | n :: rest => pruneNode n :: pruneList rest

end

/-- Claim C9: `prune` visits every node of the list: nodes with a missing or
empty child list are left untouched; a `Namespace`-kind node keeps its child
list but is recursed into; a non-`Namespace` node whose unique-id is in the
allow-list keeps its children unchanged; every other node with a non-empty
child list loses its `items` and gets `leaf := true`.  No field combination
is an error. -/
theorem prune_spec :
    (∀ ns : List Toc, pruneList ns = ns.map pruneNode) ∧
    (∀ (u ty : Option String) (leaf : Option Bool),
      pruneNode (.mk u ty none leaf) = .mk u ty none leaf) ∧
    (∀ (u ty : Option String) (leaf : Option Bool),
      pruneNode (.mk u ty (some []) leaf) = .mk u ty (some []) leaf) ∧
    (∀ (u ty : Option String) (cs : List Toc) (leaf : Option Bool),
      cs ≠ [] → ty = some ("Namespace") →
      pruneNode (.mk u ty (some cs) leaf) = .mk u ty (some (pruneList cs)) leaf) ∧
    (∀ (u ty : Option String) (cs : List Toc) (leaf : Option Bool),
      cs ≠ [] → ¬(ty = some ("Namespace")) →
      (u.getD ("")) ∈ KEEP_MEMBERS_FOR →
      pruneNode (.mk u ty (some cs) leaf) = .mk u ty (some cs) leaf) ∧
    (∀ (u ty : Option String) (cs : List Toc) (leaf : Option Bool),
      cs ≠ [] → ¬(ty = some ("Namespace")) →
      ¬((u.getD ("")) ∈ KEEP_MEMBERS_FOR) →
      pruneNode (.mk u ty (some cs) leaf) = .mk u ty none (some true)) := by
  refine ⟨?_, ?_, ?_, ?_, ?_, ?_⟩
  · intro ns
    induction ns with
    | nil => rfl
    | cons n rest ih => simp [pruneList, ih]
  · intro u ty leaf; rfl
  · intro u ty leaf; rfl
  · intro u ty cs leaf hne hty
    cases cs with
    | nil => exact absurd rfl hne
    | cons c cs2 => simp [pruneNode, hty]
  · intro u ty cs leaf hne hty hkeep
    cases cs with
    | nil => exact absurd rfl hne
    | cons c cs2 => simp [pruneNode, hty, hkeep]
  · intro u ty cs leaf hne hty hkeep
    cases cs with
    | nil => exact absurd rfl hne
    | cons c cs2 => simp [pruneNode, hty, hkeep]

theorem prune_spec_witness :
    pruneNode (Toc.mk (some ("Models.SomeModel")) (some ("Class"))
        (some [Toc.mk none none none none]) none)
      = Toc.mk (some ("Models.SomeModel")) (some ("Class")) none (some true) ∧
    pruneNode (Toc.mk (some ("Camunda.Client")) (some ("Namespace"))
        (some [Toc.mk none none none none]) none)
      = Toc.mk (some ("Camunda.Client")) (some ("Namespace"))
          (some (pruneList [Toc.mk none none none none])) none :=
  ⟨prune_spec.2.2.2.2.2 (some ("Models.SomeModel")) (some ("Class"))
      [Toc.mk none none none none] none (by simp) (by simp) (by decide),
   prune_spec.2.2.2.1 (some ("Camunda.Client")) (some ("Namespace"))
      [Toc.mk none none none none] none (by simp) rfl⟩

/-! ### `load_overwrite_examples`: uid / code-reference resolution

Sections are the pieces of an overwrite file split on `^---\s*$` lines; the
loop keeps a "current uid" and resolves the first code reference that
follows.  `re.search(r"^uid:\s*(.+)$", ., re.MULTILINE)` is modelled with
the same newline-aware whitespace backtracking as the heading regex, and
`re.search(r"\[!code-csharp\[\]\(\.\.\/examples\/(\S+)#(\w+)\)\]", .)` picks,
at the first position where the literal prefix matches, the longest `\S+`
(the rightmost `#` split) whose word run is followed by `)]`. -/

/-- Backtracking for `uid:\s*(.+)$` when the whitespace run reaches the end
of the input. -/
def uidBack (t : List Char) : Nat → Option (List Char)
  | 0 =>
    if ((t[0]?).any (fun c => !(c = '\n'))) = true then
      some (pyStrip (t.takeWhile (fun c => !(c = '\n'))))
    else none
  | Nat.succ k =>
    if ((t[Nat.succ k]?).any (fun c => !(c = '\n'))) = true then
      some (pyStrip ((t.drop (Nat.succ k)).takeWhile (fun c => !(c = '\n'))))
    else uidBack t k

/-- Match `\s*(.+)$` after a line-start `uid:`; returns the stripped group. -/
def uidLineAt? (t : List Char) : Option (List Char) :=
  if (t.takeWhile wsChar).length < t.length then
    some (pyStrip
      ((t.drop ((t.takeWhile wsChar).length)).takeWhile (fun c => !(c = '\n'))))
  else if (t.takeWhile wsChar).length = 0 then none
  else uidBack t ((t.takeWhile wsChar).length - 1)

def uidSearch : Bool → List Char → Option (List Char)
  | _, [] => none
  | atStart, c :: rest =>
    if atStart = true then
      match dropLit (("uid:").data) (c :: rest) with
      | some t =>
        match uidLineAt? t with
        | some v => some v
        | none => uidSearch (decide (c = '\n')) rest
      | none => uidSearch (decide (c = '\n')) rest
    else uidSearch (decide (c = '\n')) rest

/-- `re.search(r"^uid:\s*(.+)$", section, re.MULTILINE)`, group 1 stripped. -/
def uidLine? (s : List Char) : Option (List Char) := uidSearch true s

def nonWsChar (c : Char) : Bool := !(wsChar c)

/-- A valid `(\S+)#(\w+)\)\]` split at offset `p` of the text after the
code-reference literal. -/
def validHash (t : List Char) (p : Nat) : Bool :=
  decide (1 ≤ p) && (t.take p).all nonWsChar && decide (t[p]? = some ('#')) &&
    decide ((t.drop (p + 1)).takeWhile wordChar ≠ []) &&
    (((")]").data).isPrefixOf
      (((t.drop (p + 1)).drop (((t.drop (p + 1)).takeWhile wordChar).length))))

/-- Greedy `\S+`: the rightmost valid split wins. -/
def bestHash (t : List Char) : Option Nat :=
  ((List.range (t.length + 1)).filter (validHash t)).getLast?

def codeRefAt? (s : List Char) : Option (List Char × List Char) :=
  match dropLit (("[!code-csharp[](../examples/").data) s with
  | none => none
  | some t =>
    match bestHash t with
    | none => none
    | some p => some (t.take p, (t.drop (p + 1)).takeWhile wordChar)

/-- `re.search` for the code-reference pattern: first matching position wins;
returns (file, region). -/
def codeRef? : List Char → Option (List Char × List Char)
  | [] => none
  | c :: rest =>
    match codeRefAt? (c :: rest) with
    | some fr => some fr
    | none => codeRef? rest

/-- State of the overwrite-parsing loop: the pending uid (Python's
`current_uid`, where `some []` models the falsy empty string) and the
accumulated uid-to-example dictionary. -/
structure OState where
  current : Option (List Char)
  examples : List (List Char × List Char)

/-- One iteration of the `for section in sections` loop of
`load_overwrite_examples`. -/
def stepSection (all_regions : List (List Char × List Char)) (st : OState)
    (sec : List Char) : OState :=
  if pyStrip sec = [] then st
  else
    match uidLine? (pyStrip sec) with
    | some u => ⟨some u, st.examples⟩
    | none =>
      match codeRef? (pyStrip sec) with
      | some fr =>
        match st.current with
        | some u =>
          if u = [] then st
          else ⟨none,
            match lookupAssoc fr.2 all_regions with
            | some code => (u, code) :: st.examples
            | none => st.examples⟩
        | none => st
      | none => st

def processSections (all_regions : List (List Char × List Char))
    (sections : List (List Char)) (st : OState) : OState :=
  List.foldl (stepSection all_regions) st sections

theorem stepSection_consume (all_regions : List (List Char × List Char))
    (st : OState) (sec : List Char) (u f region : List Char)
    (hcur : st.current = some u) (hu : u ≠ [])
    (hs : pyStrip sec ≠ [])
    (huid : uidLine? (pyStrip sec) = none)
    (hcode : codeRef? (pyStrip sec) = some (f, region))
    (hlook : lookupAssoc region all_regions = none) :
    stepSection all_regions st sec = ⟨none, st.examples⟩ := by
  unfold stepSection
  rw [if_neg hs, huid]
  show (match codeRef? (pyStrip sec) with
    | some fr =>
      match st.current with
      | some u =>
        if u = [] then st
        else ⟨none,
          match lookupAssoc fr.2 all_regions with
          | some code => (u, code) :: st.examples
          | none => st.examples⟩
      | none => st
    | none => st) = (⟨none, st.examples⟩ : OState)
  rw [hcode]
  show (match st.current with
    | some u =>
      if u = [] then st
      else ⟨none,
        match lookupAssoc region all_regions with
        | some code => (u, code) :: st.examples
        | none => st.examples⟩
    | none => st) = (⟨none, st.examples⟩ : OState)
  rw [hcur]
  show (if u = [] then st
    else (⟨none,
      match lookupAssoc region all_regions with
      | some code => (u, code) :: st.examples
      | none => st.examples⟩ : OState)) = (⟨none, st.examples⟩ : OState)
  rw [if_neg hu, hlook]

theorem stepSection_skip_none (all_regions : List (List Char × List Char))
    (st : OState) (sec : List Char)
    (hcur : st.current = none)
    (huid : uidLine? (pyStrip sec) = none) :
    stepSection all_regions st sec = st := by
  unfold stepSection
  split
  · rfl
  · rw [huid]
    show (match codeRef? (pyStrip sec) with
      | some fr =>
        match st.current with
        | some u =>
          if u = [] then st
          else ⟨none,
            match lookupAssoc fr.2 all_regions with
            | some code => (u, code) :: st.examples
            | none => st.examples⟩
        | none => st
      | none => st) = st
    cases hc : codeRef? (pyStrip sec) with
    | none => rfl
    | some fr => rw [hcur]

/-- Claim C10: once a uid is pending, the first subsequent section holding a
code reference consumes it (the current uid is reset to `none`) whether or
not the referenced region resolves; with an unresolvable region the uid gets
no example, and a later section with a resolvable reference contributes
nothing because no uid is pending any more. -/
theorem load_overwrite_consumes_uid (all_regions : List (List Char × List Char)) :
    (∀ (st : OState) (sec : List Char) (u f region : List Char),
      st.current = some u → u ≠ [] →
      pyStrip sec ≠ [] →
      uidLine? (pyStrip sec) = none →
      codeRef? (pyStrip sec) = some (f, region) →
      lookupAssoc region all_regions = none →
      stepSection all_regions st sec = ⟨none, st.examples⟩) ∧
    (∀ (sec1 sec2 : List Char) (rest : List (List Char))
        (u f1 r1 f2 r2 : List Char) (ex : List (List Char × List Char)),
      u ≠ [] →
      pyStrip sec1 ≠ [] → uidLine? (pyStrip sec1) = none →
      codeRef? (pyStrip sec1) = some (f1, r1) →
      lookupAssoc r1 all_regions = none →
      pyStrip sec2 ≠ [] → uidLine? (pyStrip sec2) = none →
      codeRef? (pyStrip sec2) = some (f2, r2) →
      processSections all_regions (sec1 :: sec2 :: rest) ⟨some u, ex⟩
        = processSections all_regions rest ⟨none, ex⟩) := by
  constructor
  · exact fun st sec u f region h1 h2 h3 h4 h5 h6 =>
      stepSection_consume all_regions st sec u f region h1 h2 h3 h4 h5 h6
  · intro sec1 sec2 rest u f1 r1 f2 r2 ex hu h1 h2 h3 h4 h5 h6 h7
    unfold processSections
    rw [List.foldl_cons, List.foldl_cons,
      stepSection_consume all_regions ⟨some u, ex⟩ sec1 u f1 r1 rfl hu h1 h2 h3 h4,
      stepSection_skip_none all_regions ⟨none, ex⟩ sec2 rfl h6]

theorem load_overwrite_consumes_uid_witness :
    uidLine? (pyStrip (("[!code-csharp[](../examples/F.cs#Missing)]").data)) = none ∧
    codeRef? (pyStrip (("[!code-csharp[](../examples/F.cs#Missing)]").data))
      = some ((("F.cs").data), (("Missing").data)) ∧
    codeRef? (pyStrip (("[!code-csharp[](../examples/F.cs#Known)]").data))
      = some ((("F.cs").data), (("Known").data)) ∧
    lookupAssoc (("Missing").data) [((("Known").data), (("var c = 1;").data))] = none ∧
    processSections [((("Known").data), (("var c = 1;").data))]
        [(("[!code-csharp[](../examples/F.cs#Missing)]").data),
         (("[!code-csharp[](../examples/F.cs#Known)]").data)]
        ⟨some (("M:Foo.Bar").data), []⟩
      = processSections [((("Known").data), (("var c = 1;").data))] [] ⟨none, []⟩ :=
  ⟨by decide, by decide, by decide, by decide,
    (load_overwrite_consumes_uid [((("Known").data), (("var c = 1;").data))]).2
      (("[!code-csharp[](../examples/F.cs#Missing)]").data)
      (("[!code-csharp[](../examples/F.cs#Known)]").data)
      [] (("M:Foo.Bar").data) (("F.cs").data) (("Missing").data)
      (("F.cs").data) (("Known").data) []
      (by decide) (by decide) (by decide) (by decide) (by decide)
      (by decide) (by decide) (by decide)⟩
